import Mathlib

/-!
# Butterfingers robot control program: embedding and verification

A shallow embedding of `src/main.cpp`.  Hardware calls (motor moves, chassis
motions, LCD writes) are recorded as a trace of `Cmd` values, in program
order.  Sensor and controller readings are parameters of the routines.

The heading handled by the Y-button block is a C++ `float` (IEEE 754
binary32).  A finite binary32 value is a rational number; the sums and
differences of the normalisation loops are rounded to the nearest binary32
value, ties to even, by `roundF32`.  Infinities and NaN are outside the
model; adding or subtracting 360 never overflows a finite binary32 value.
Since the loops need not exit, they carry an iteration budget and return
`none` when the budget does not reach the loop exit.  The cardinal search is
given with exact distances (`scanStep`) and with rounded ones (`scanStepF32`);
the two return the same heading on every binary32 value in `[0, 360)`.
-/

namespace Butterfingers

/-! ## Hardware handles and command traces -/

/-- The three intake/outtake motors declared at `main.cpp:14-16`. -/
inductive Motor
  | front_bottom
  | middle
  | back_top
  deriving DecidableEq, Repr

/-- One observable call on the hardware or on the chassis library. -/
inductive Cmd
  | lcdSetText (line : Nat) (text : String)
  | lcdPrintXY (x y : ℚ)
  | lcdPrintHeading (theta : ℚ)
  | setPose (x y theta : ℚ)
  | move (m : Motor) (voltage : Int)
  | moveToPoint (x y : ℚ) (timeout : Int)
  | turnToHeading (theta : ℚ) (timeout : Int) (maxSpeed : Int) (async : Bool)
  | arcade (forward turn : Int)
  | toggleC
  | toggleD
  | delay (ms : Nat)
  deriving DecidableEq

/-! ## Binary32 rounding -/

/-- Round to the nearest integer, ties to the even one. -/
def roundHalfEven (q : ℚ) : ℤ :=
  let f := ⌊q⌋
  let r := q - (f : ℚ)
  if r < 1 / 2 then f
  else if 1 / 2 < r then f + 1
  else if f % 2 = 0 then f else f + 1

/-- Exponent of the binary32 binade of `x`: `⌊log₂ |x|⌋`, not below the
subnormal exponent -126. -/
def expF32 (x : ℚ) : ℤ :=
  if x = 0 then -126 else max (Int.log 2 |x|) (-126)

/-- Spacing of binary32 values in the binade of `x` (24-bit significand). -/
def ulpF32 (x : ℚ) : ℚ :=
  (2 : ℚ) ^ (expF32 x - 23)

/-- The binary32 value nearest to `x`, ties to even. -/
def roundF32 (x : ℚ) : ℚ :=
  (roundHalfEven (x / ulpF32 x) : ℚ) * ulpF32 x

/-! ## Heading normalisation (`main.cpp:231-234`) -/

/-- The loop `while (current_heading < 0) current_heading += 360;` on a
binary32 local: each sum is rounded.  `none` when `fuel` iterations do not
reach the loop exit. -/
def addLoop : Nat → ℚ → Option ℚ
  | 0, _ => none
  | fuel + 1, current_heading =>
    if current_heading < 0 then addLoop fuel (roundF32 (current_heading + 360))
    else some current_heading

/-- The loop `while (current_heading >= 360) current_heading -= 360;`. -/
def subLoop : Nat → ℚ → Option ℚ
  | 0, _ => none
  | fuel + 1, current_heading =>
    if current_heading ≥ 360 then subLoop fuel (roundF32 (current_heading - 360))
    else some current_heading

/-- Both loops in program order, each with the same iteration budget. -/
def normalizeHeading (fuel : Nat) (theta : ℚ) : Option ℚ :=
  (addLoop fuel theta).bind (subLoop fuel)

/-! ## Nearest cardinal search (`main.cpp:237-246`) -/

/-- The two locals updated by the `for` loop. -/
structure ScanState where
  nearest : ℚ
  min_diff : ℚ
  deriving DecidableEq

/-- The brace list iterated by the `for` loop, in order. -/
def cardinals : List Int := [0, 90, 180, 270, 360]

/-- One pass of the loop body for the candidate `cardinal`, with the distance
`|current_heading - cardinal|` exact.  `scanStepF32` below rounds the
difference as the `float` subtraction does; by `findNearestF32_eq` both
searches return the same heading on every binary32 value in `[0, 360)`. -/
def scanStep (current_heading : ℚ) (s : ScanState) (cardinal : Int) : ScanState :=
  let diff : ℚ := |current_heading - (cardinal : ℚ)|
  if diff < s.min_diff then { nearest := (cardinal : ℚ), min_diff := diff } else s

/-- The search from `nearest = 0`, `min_diff = 360`, followed by
`if (nearest == 360) nearest = 0;`. -/
def findNearest (current_heading : ℚ) : ℚ :=
  let s := cardinals.foldl (scanStep current_heading) { nearest := 0, min_diff := 360 }
  if s.nearest = 360 then 0 else s.nearest

/-- One pass of the loop body with the difference rounded to binary32, as the
`float` subtraction `current_heading - cardinal` computes it. -/
def scanStepF32 (current_heading : ℚ) (s : ScanState) (cardinal : Int) : ScanState :=
  let diff : ℚ := |roundF32 (current_heading - (cardinal : ℚ))|
  if diff < s.min_diff then { nearest := (cardinal : ℚ), min_diff := diff } else s

/-- The search with rounded differences. -/
def findNearestF32 (current_heading : ℚ) : ℚ :=
  let s := cardinals.foldl (scanStepF32 current_heading) { nearest := 0, min_diff := 360 }
  if s.nearest = 360 then 0 else s.nearest

/-- The heading handed to `chassis.turnToHeading` for a pose heading `theta`;
`none` when the normalisation loops do not exit within `fuel` iterations.  By
`snapTarget_eq_findNearestF32` it is the heading the search with rounded
differences returns, for every binary32 pose heading. -/
def snapTarget (fuel : Nat) (theta : ℚ) : Option ℚ :=
  (normalizeHeading fuel theta).map findNearest

/-- The Y-button block of one `opcontrol` iteration; `none` when its loops do
not exit within `fuel` iterations. -/
def headingSnapBlock (fuel : Nat) (y_new_press : Bool) (theta : ℚ) : Option (List Cmd) :=
  if y_new_press then
    (snapTarget fuel theta).map fun nearest => [Cmd.turnToHeading nearest 1000 127 false]
  else some []

/-! ## Intake and outtake routines (`main.cpp:82-121`) -/

/-- Routine `intake_store`, given the value of `color_sensor.get_proximity()`. -/
def intake_store (proximity : Int) : List Cmd :=
  [Cmd.move Motor.front_bottom (-127)]
    ++ (if proximity > 100 then [Cmd.move Motor.middle 65] else [Cmd.move Motor.middle 0])
    ++ [Cmd.move Motor.back_top 0]

/-- Routine `outtake_top`. -/
def outtake_top : List Cmd :=
  [Cmd.move Motor.front_bottom (-127), Cmd.move Motor.middle 127, Cmd.move Motor.back_top 127]

/-- Routine `outtake_middle`. -/
def outtake_middle : List Cmd :=
  [Cmd.move Motor.front_bottom (-127), Cmd.move Motor.middle 127,
    Cmd.move Motor.back_top (-127)]

/-- Routine `outtake_bottom`. -/
def outtake_bottom : List Cmd :=
  [Cmd.move Motor.front_bottom 127, Cmd.move Motor.middle (-127), Cmd.move Motor.back_top 0]

/-- Routine `stop_intake`. -/
def stop_intake : List Cmd :=
  [Cmd.move Motor.front_bottom 0, Cmd.move Motor.middle 0, Cmd.move Motor.back_top 0]

/-! ## Autonomous routine (`main.cpp:174-194`) -/

/-- Routine `autonomous`, given the proximity value read by its `intake_store` call. -/
def autonomous (proximity : Int) : List Cmd :=
  [Cmd.lcdSetText 3 "Auton Started!"]
    ++ [Cmd.setPose 0 0 0]
    ++ [Cmd.lcdSetText 4 "Pose Set"]
    ++ intake_store proximity
    ++ [Cmd.lcdSetText 5 "Intake Running"]
    ++ [Cmd.moveToPoint 24 0 2000]
    ++ [Cmd.lcdSetText 6 "Movement Done"]
    ++ stop_intake
    ++ [Cmd.lcdSetText 7 "Auton Complete"]

/-! ## Operator control (`main.cpp:209-283`) -/

/-- Names of the five intake routines, used to say which branch of the
`if / else if` chain is taken. -/
inductive Routine
  | intake_store
  | outtake_top
  | outtake_middle
  | outtake_bottom
  | stop_intake
  deriving DecidableEq, Repr

/-- The `if / else if` chain at `main.cpp:265-275`: which routine is called. -/
def selectRoutine (r1 r2 l1 l2 : Bool) : Routine :=
  if r1 then Routine.intake_store
  else if r2 then Routine.outtake_top
  else if l1 then Routine.outtake_middle
  else if l2 then Routine.outtake_bottom
  else Routine.stop_intake

/-- The body of a routine, as a command trace. -/
def runRoutine (proximity : Int) : Routine → List Cmd
  | Routine.intake_store => intake_store proximity
  | Routine.outtake_top => outtake_top
  | Routine.outtake_middle => outtake_middle
  | Routine.outtake_bottom => outtake_bottom
  | Routine.stop_intake => stop_intake

/-- The intake/outtake block of one `opcontrol` iteration. -/
def intakeBlock (r1 r2 l1 l2 : Bool) (proximity : Int) : List Cmd :=
  runRoutine proximity (selectRoutine r1 r2 l1 l2)

/-- Two's-complement wrap of an integer into the range of a 32-bit `int`. -/
def wrapInt32 (x : Int) : Int :=
  (x + 2147483648) % 4294967296 - 2147483648

/-- The statements `if (A) forward = -forward;` on the `int` local `forward`. -/
def reverseForward (a_pressed : Bool) (forward : Int) : Int :=
  if a_pressed then wrapInt32 (-forward) else forward

/-- The arcade-drive block of one `opcontrol` iteration; `left_y` and `right_x`
are the two `get_analog` readings. -/
def arcadeBlock (a_pressed : Bool) (left_y right_x : Int) : List Cmd :=
  let forward := left_y
  let turn := right_x
  let forward := reverseForward a_pressed forward
  [Cmd.arcade forward turn]

/-- Everything one pass of the `while (true)` body reads.  Each sensor read in
the source has its own field, since two reads may return different values. -/
structure Inputs where
  up : Bool
  right_new_press : Bool
  left_new_press : Bool
  y_new_press : Bool
  a_pressed : Bool
  r1 : Bool
  r2 : Bool
  l1 : Bool
  l2 : Bool
  left_y : Int
  right_x : Int
  auton_proximity : Int
  theta : ℚ
  proximity : Int
  lcd_x : ℚ
  lcd_y : ℚ
  lcd_theta : ℚ

/-- The commands of one pass of the `while (true)` body of `opcontrol`, given
the commands `snap` issued by its Y-button block. -/
def iterationTrace (i : Inputs) (snap : List Cmd) : List Cmd :=
  (if i.up then autonomous i.auton_proximity else [])
    ++ (if i.right_new_press then [Cmd.toggleC] else [])
    ++ (if i.left_new_press then [Cmd.toggleD] else [])
    ++ snap
    ++ arcadeBlock i.a_pressed i.left_y i.right_x
    ++ intakeBlock i.r1 i.r2 i.l1 i.l2 i.proximity
    ++ [Cmd.lcdPrintXY i.lcd_x i.lcd_y]
    ++ [Cmd.lcdPrintHeading i.lcd_theta]
    ++ [Cmd.delay 20]

/-- One pass of the `while (true)` body of `opcontrol`; `none` when the pass
does not complete because the loops of the Y-button block do not exit within
`fuel` iterations. -/
def opcontrolIteration (fuel : Nat) (i : Inputs) : Option (List Cmd) :=
  (headingSnapBlock fuel i.y_new_press i.theta).map (iterationTrace i)

/-! ## Observations on traces -/

/-- The voltages commanded to motor `m`, in order. -/
def voltagesTo (m : Motor) (trace : List Cmd) : List Int :=
  trace.filterMap fun c =>
    match c with
    | Cmd.move m' v => if m' = m then some v else none
    | _ => none

/-- The chassis motion commands of a trace (point moves, turns and arcade
drive), in order. -/
def motionCmds (trace : List Cmd) : List Cmd :=
  trace.filter fun c =>
    match c with
    | Cmd.moveToPoint _ _ _ => true
    | Cmd.turnToHeading _ _ _ _ => true
    | Cmd.arcade _ _ => true
    | _ => false

/-- The `(forward, turn)` pairs received by `chassis.arcade`, in order. -/
def arcadeCalls (trace : List Cmd) : List (Int × Int) :=
  trace.filterMap fun c =>
    match c with
    | Cmd.arcade f t => some (f, t)
    | _ => none

/-- The motor commands of a trace, in order. -/
def motorCmds (trace : List Cmd) : List Cmd :=
  trace.filter fun c =>
    match c with
    | Cmd.move _ _ => true
    | _ => false

/-- The trace without LCD writes and delays: poses, motors, chassis motions,
drive and pneumatics. -/
def actuatorCmds (trace : List Cmd) : List Cmd :=
  trace.filter fun c =>
    match c with
    | Cmd.lcdSetText _ _ => false
    | Cmd.lcdPrintXY _ _ => false
    | Cmd.lcdPrintHeading _ => false
    | Cmd.delay _ => false
    | _ => true

/-- Squared planar distance between two points. -/
def distSq (x₁ y₁ x₂ y₂ : ℚ) : ℚ :=
  (x₂ - x₁) ^ 2 + (y₂ - y₁) ^ 2

/-! ## Measures used to state the heading-snap properties -/

/-- A difference of headings reduced into `[0, 360)`, in exact arithmetic.  The choice of
representative does not matter for `angularDistance`, see
`angularDistance_of_representative`. -/
def reduceMod360 (d : ℚ) : ℚ :=
  d - 360 * (⌊d / 360⌋ : ℚ)

/-- Angular distance on the circle between headings `a` and `b`:
`min (|d|, 360 - |d|)` for `d` the difference reduced mod 360. -/
def angularDistance (a b : ℚ) : ℚ :=
  let d := reduceMod360 (a - b)
  min |d| (360 - |d|)

/-- Reference scan, written from the wording of the property and not from the
source: it keeps only the best candidate so far, starting from the first
candidate `c₀` and replacing the kept one only by a strictly closer one, so
that the first candidate with the smallest `|h - c|` is returned. -/
def linearScan (h : ℚ) (c₀ : ℚ) (rest : List ℚ) : ℚ :=
  rest.foldl (fun best c => if |h - c| < |h - best| then c else best) c₀

/-- The reference scan over the four candidates 0, 90, 180, 270. -/
def linearScan4 (h : ℚ) : ℚ :=
  linearScan h 0 [90, 180, 270]

/-- The reference scan over the five candidates 0, 90, 180, 270, 360, with 360
reported as 0. -/
def linearScan5 (h : ℚ) : ℚ :=
  let c := linearScan h 0 [90, 180, 270, 360]
  if c = 360 then 0 else c

/-! ## Facts about binary32 rounding -/

theorem roundHalfEven_error (q : ℚ) : |((roundHalfEven q : ℤ) : ℚ) - q| ≤ 1 / 2 := by
  have h1 := Int.floor_le q
  have h2 := Int.lt_floor_add_one q
  unfold roundHalfEven
  simp only []
  split_ifs with a b c
  · rw [abs_le]; constructor <;> linarith
  · push_cast; rw [abs_le]; constructor <;> linarith
  · rw [abs_le]; constructor <;> linarith
  · push_cast; rw [abs_le]; constructor <;> linarith

theorem roundHalfEven_intCast (z : ℤ) : roundHalfEven (z : ℚ) = z := by
  unfold roundHalfEven
  simp only [Int.floor_intCast, sub_self]
  norm_num

theorem roundHalfEven_nonneg {q : ℚ} (hq : 0 ≤ q) : 0 ≤ roundHalfEven q := by
  have hf : 0 ≤ ⌊q⌋ := Int.floor_nonneg.mpr hq
  unfold roundHalfEven
  simp only []
  split_ifs <;> omega

theorem ulpF32_pos (x : ℚ) : 0 < ulpF32 x := by
  unfold ulpF32
  positivity

theorem roundF32_error (x : ℚ) : |roundF32 x - x| ≤ ulpF32 x / 2 := by
  have hu := ulpF32_pos x
  have he := roundHalfEven_error (x / ulpF32 x)
  have hx : roundF32 x - x = (((roundHalfEven (x / ulpF32 x) : ℤ) : ℚ) - x / ulpF32 x) * ulpF32 x := by
    unfold roundF32
    field_simp
  rw [hx, abs_mul, abs_of_pos hu]
  calc |((roundHalfEven (x / ulpF32 x) : ℤ) : ℚ) - x / ulpF32 x| * ulpF32 x
      ≤ 1 / 2 * ulpF32 x := mul_le_mul_of_nonneg_right he hu.le
    _ = ulpF32 x / 2 := by ring

theorem roundF32_nonneg {x : ℚ} (hx : 0 ≤ x) : 0 ≤ roundF32 x := by
  have hu := ulpF32_pos x
  unfold roundF32
  have : 0 ≤ roundHalfEven (x / ulpF32 x) := roundHalfEven_nonneg (div_nonneg hx hu.le)
  have : (0 : ℚ) ≤ ((roundHalfEven (x / ulpF32 x) : ℤ) : ℚ) := by exact_mod_cast this
  positivity

/-- The binade exponent, from bounds by powers of two. -/
theorem expF32_eq {x : ℚ} {e : ℤ} (he : -126 ≤ e) (h1 : (2 : ℚ) ^ e ≤ |x|)
    (h2 : |x| < (2 : ℚ) ^ (e + 1)) : expF32 x = e := by
  have hpos : 0 < |x| := lt_of_lt_of_le (by positivity) h1
  have hlog : Int.log 2 |x| = e := by
    apply le_antisymm
    · have := (Int.lt_zpow_iff_log_lt (b := 2) (by norm_num) hpos).mp (by exact_mod_cast h2)
      omega
    · exact (Int.zpow_le_iff_le_log (b := 2) (by norm_num) hpos).mp (by exact_mod_cast h1)
  have hx : x ≠ 0 := abs_pos.mp hpos
  unfold expF32
  rw [if_neg hx, hlog]
  exact max_eq_left he

theorem expF32_le {x : ℚ} {e : ℤ} (he : -126 ≤ e) (h2 : |x| < (2 : ℚ) ^ (e + 1)) :
    expF32 x ≤ e := by
  unfold expF32
  split_ifs with h0
  · exact he
  · apply max_le _ he
    have hpos : 0 < |x| := abs_pos.mpr h0
    have := (Int.lt_zpow_iff_log_lt (b := 2) (by norm_num) hpos).mp (by exact_mod_cast h2)
    omega

theorem ulpF32_le {x : ℚ} {e : ℤ} (he : -126 ≤ e) (h2 : |x| < (2 : ℚ) ^ (e + 1)) :
    ulpF32 x ≤ (2 : ℚ) ^ (e - 23) := by
  unfold ulpF32
  apply zpow_le_zpow_right₀ (by norm_num)
  have := expF32_le he h2
  omega

theorem roundHalfEven_tie_even {q : ℚ} {f : ℤ} (h1 : q = (f : ℚ) + 1 / 2) (h2 : f % 2 = 0) :
    roundHalfEven q = f := by
  have hf : ⌊q⌋ = f := by
    rw [Int.floor_eq_iff]
    constructor <;> linarith
  unfold roundHalfEven
  simp only [hf]
  rw [if_neg (by linarith), if_neg (by linarith), if_pos h2]

/-- Evaluation of the rounding once the binade and the rounded quotient are known. -/
theorem roundF32_eval {x : ℚ} {e f : ℤ} (he : expF32 x = e)
    (hf : roundHalfEven (x / (2 : ℚ) ^ (e - 23)) = f) :
    roundF32 x = (f : ℚ) * (2 : ℚ) ^ (e - 23) := by
  unfold roundF32 ulpF32
  rw [he, hf]

/-- A value whose quotient by the spacing of its binade is an integer is a
binary32 value: rounding leaves it unchanged. -/
theorem roundF32_of_quotient {x : ℚ} (z : ℤ) (hz : x / ulpF32 x = (z : ℚ)) : roundF32 x = x := by
  have hu := ulpF32_pos x
  unfold roundF32
  rw [hz, roundHalfEven_intCast, ← hz]
  field_simp

theorem roundF32_zero : roundF32 0 = 0 :=
  roundF32_of_quotient 0 (by simp)

theorem zpow_quotient (n : ℤ) (j a : ℤ) (k : ℕ) (hk : (k : ℤ) = j - a) :
    ((n : ℚ) * (2 : ℚ) ^ j) / (2 : ℚ) ^ a = ((n * 2 ^ k : ℤ) : ℚ) := by
  have hj : j = a + k := by omega
  rw [hj, zpow_add₀ (by norm_num : (2 : ℚ) ≠ 0), zpow_natCast]
  push_cast
  field_simp
  ring

/-- Integers of at most 24 bits scaled by a power of two, not below the
smallest subnormal, are binary32 values. -/
theorem roundF32_int_mul_zpow (n : ℤ) (j : ℤ) (hj : -149 ≤ j) (hn : |n| ≤ 2 ^ 24) :
    roundF32 ((n : ℚ) * (2 : ℚ) ^ j) = (n : ℚ) * (2 : ℚ) ^ j := by
  rcases eq_or_ne n 0 with rfl | hn0
  · simp only [Int.cast_zero, zero_mul]
    exact roundF32_zero
  set x : ℚ := (n : ℚ) * (2 : ℚ) ^ j with hx
  have hp : (0 : ℚ) < (2 : ℚ) ^ j := by positivity
  have hnq : (1 : ℚ) ≤ |(n : ℚ)| := by
    have : (1 : ℤ) ≤ |n| := Int.one_le_abs hn0
    exact_mod_cast this
  have hnq2 : |(n : ℚ)| ≤ 2 ^ 24 := by exact_mod_cast hn
  have habs : |x| = |(n : ℚ)| * (2 : ℚ) ^ j := by
    rw [hx, abs_mul, abs_of_pos hp]
  have hpos : 0 < |x| := by rw [habs]; positivity
  have hx0 : x ≠ 0 := abs_pos.mp hpos
  have hlo : (2 : ℚ) ^ j ≤ |x| := by
    rw [habs]
    nlinarith
  have hhi : |x| < (2 : ℚ) ^ (24 + j + 1) := by
    rw [habs, zpow_add₀ (by norm_num), zpow_add₀ (by norm_num)]
    norm_num
    nlinarith
  set e := Int.log 2 |x| with he
  have e1 : j ≤ e :=
    (Int.zpow_le_iff_le_log (b := 2) (by norm_num) hpos).mp (by exact_mod_cast hlo)
  have e2 : e < 24 + j + 1 :=
    (Int.lt_zpow_iff_log_lt (b := 2) (by norm_num) hpos).mp (by exact_mod_cast hhi)
  have hexp : expF32 x = max e (-126) := by
    unfold expF32
    rw [if_neg hx0]
  have hulp : ulpF32 x = (2 : ℚ) ^ (max e (-126) - 23) := by
    unfold ulpF32
    rw [hexp]
  rcases lt_or_eq_of_le (show e ≤ 24 + j by omega) with hlt | heq
  · obtain ⟨k, hk⟩ : ∃ k : ℕ, (k : ℤ) = j - (max e (-126) - 23) :=
      ⟨(j - (max e (-126) - 23)).toNat, by omega⟩
    apply roundF32_of_quotient (n * 2 ^ k)
    rw [hulp, hx]
    exact zpow_quotient n j _ k hk
  · have hge : (2 : ℚ) ^ (24 + j) ≤ |x| := by
      have := Int.zpow_log_le_self (b := 2) (by norm_num) hpos
      rw [← he, heq] at this
      exact_mod_cast this
    have hn24 : |(n : ℚ)| = 2 ^ 24 := by
      apply le_antisymm hnq2
      rw [habs, zpow_add₀ (by norm_num)] at hge
      have := le_of_mul_le_mul_right hge hp
      norm_num at this ⊢
      exact this
    have hu2 : ulpF32 x = 2 * (2 : ℚ) ^ j := by
      rw [hulp, heq, max_eq_left (by omega)]
      have : (24 + j - 23) = 1 + j := by ring
      rw [this, zpow_add₀ (by norm_num)]
      norm_num
    have hp0 : (2 : ℚ) ^ j ≠ 0 := hp.ne'
    rcases abs_cases (n : ℚ) with ⟨ha, _⟩ | ⟨ha, _⟩
    · apply roundF32_of_quotient (2 ^ 23)
      rw [hu2, hx]
      have : (n : ℚ) = 2 ^ 24 := by rw [← ha, hn24]
      rw [this]
      field_simp
      ring
    · apply roundF32_of_quotient (-(2 ^ 23))
      rw [hu2, hx]
      have : (n : ℚ) = -(2 ^ 24) := by linarith
      rw [this]
      field_simp
      ring

/-- Integers of at most 24 bits scaled by a power of two are binary32 values. -/
theorem roundF32_int_mul_pow (n : ℤ) (j : ℕ) (hn : |n| ≤ 2 ^ 24) :
    roundF32 ((n : ℚ) * (2 : ℚ) ^ j) = (n : ℚ) * (2 : ℚ) ^ j := by
  have := roundF32_int_mul_zpow n (j : ℤ) (by omega) hn
  rw [zpow_natCast] at this
  exact this

/-- Every integer of magnitude at most 2^24 is a binary32 value. -/
theorem roundF32_intCast (n : ℤ) (hn : |n| ≤ 2 ^ 24) : roundF32 (n : ℚ) = n := by
  have := roundF32_int_mul_pow n 0 hn
  simpa using this

theorem roundHalfEven_neg (q : ℚ) : roundHalfEven (-q) = -roundHalfEven q := by
  have h1 := Int.floor_le q
  have h2 := Int.lt_floor_add_one q
  rcases eq_or_lt_of_le h1 with heq | hlt
  · have e1 : -q = ((-⌊q⌋ : ℤ) : ℚ) := by
      push_cast
      linarith
    rw [e1, roundHalfEven_intCast]
    have e2 : q = ((⌊q⌋ : ℤ) : ℚ) := heq.symm
    rw [e2, roundHalfEven_intCast, Int.floor_intCast]
  · have hf : ⌊-q⌋ = -⌊q⌋ - 1 := by
      rw [Int.floor_eq_iff]
      push_cast
      constructor <;> linarith
    unfold roundHalfEven
    simp only [hf]
    push_cast
    by_cases c1 : q - (⌊q⌋ : ℚ) < 1 / 2
    · rw [if_pos c1, if_neg (by linarith), if_pos (by linarith)]
      ring
    · by_cases c2 : 1 / 2 < q - (⌊q⌋ : ℚ)
      · rw [if_neg c1, if_pos c2, if_pos (by linarith)]
        ring
      · rw [if_neg c1, if_neg c2, if_neg (by linarith), if_neg (by linarith)]
        by_cases c3 : ⌊q⌋ % 2 = 0
        · rw [if_pos c3, if_neg (by omega)]
          ring
        · rw [if_neg c3, if_pos (by omega)]
          ring

theorem roundF32_neg (x : ℚ) : roundF32 (-x) = -roundF32 x := by
  have he : expF32 (-x) = expF32 x := by
    unfold expF32
    simp only [abs_neg, neg_eq_zero]
  unfold roundF32 ulpF32
  rw [he, neg_div, roundHalfEven_neg]
  push_cast
  ring

/-- A binary32 value in the binade of exponent `e` minus a multiple of the
spacing of that binade is again a binary32 value when the difference does not
exceed the top of the binade: the subtraction is exact. -/
theorem roundF32_sub_quantum {h : ℚ} (hf : roundF32 h = h) {e : ℤ} (he : -126 ≤ e)
    (h1 : (2 : ℚ) ^ e ≤ h) (h2 : h < (2 : ℚ) ^ (e + 1)) (m : ℤ)
    (hc : |h - (m : ℚ) * (2 : ℚ) ^ (e - 23)| ≤ (2 : ℚ) ^ (e + 1)) :
    roundF32 (h - (m : ℚ) * (2 : ℚ) ^ (e - 23)) = h - (m : ℚ) * (2 : ℚ) ^ (e - 23) := by
  have hpos : (0 : ℚ) < h := lt_of_lt_of_le (by positivity) h1
  have hexp : expF32 h = e :=
    expF32_eq he (by rw [abs_of_pos hpos]; exact h1) (by rw [abs_of_pos hpos]; exact h2)
  have hulp : ulpF32 h = (2 : ℚ) ^ (e - 23) := by
    unfold ulpF32
    rw [hexp]
  have hu : (0 : ℚ) < (2 : ℚ) ^ (e - 23) := by positivity
  set z := roundHalfEven (h / ulpF32 h) with hz
  have hh : h = (z : ℚ) * (2 : ℚ) ^ (e - 23) := by
    have := hf
    unfold roundF32 at this
    rw [← hz, hulp] at this
    exact this.symm
  have hdiff : h - (m : ℚ) * (2 : ℚ) ^ (e - 23) = ((z - m : ℤ) : ℚ) * (2 : ℚ) ^ (e - 23) := by
    rw [Int.cast_sub, sub_mul, ← hh]
  have hn : |z - m| ≤ 2 ^ 24 := by
    have h3 : |((z - m : ℤ) : ℚ)| * (2 : ℚ) ^ (e - 23) ≤ (2 : ℚ) ^ (e + 1) := by
      rw [← abs_of_pos hu, ← abs_mul, ← hdiff]
      exact hc
    have h4 : (2 : ℚ) ^ (e + 1) = 2 ^ 24 * (2 : ℚ) ^ (e - 23) := by
      rw [← zpow_natCast, ← zpow_add₀ (by norm_num : (2 : ℚ) ≠ 0)]
      congr 1
      push_cast
      ring
    rw [h4] at h3
    have h5 := le_of_mul_le_mul_right h3 hu
    exact_mod_cast h5
  rw [hdiff]
  exact roundF32_int_mul_zpow _ _ (by omega) hn

/-- A binary32 value in the binade of exponent `e` minus an integer is again a
binary32 value when the difference does not exceed the top of that binade:
the subtraction is exact. -/
theorem roundF32_sub_exact {h : ℚ} (hf : roundF32 h = h) {e : ℤ} (he0 : 0 ≤ e) (he23 : e ≤ 23)
    (h1 : (2 : ℚ) ^ e ≤ h) (h2 : h < (2 : ℚ) ^ (e + 1)) (c : ℤ)
    (hc : |h - (c : ℚ)| ≤ (2 : ℚ) ^ (e + 1)) :
    roundF32 (h - (c : ℚ)) = h - (c : ℚ) := by
  obtain ⟨k, hk⟩ : ∃ k : ℕ, (k : ℤ) = 23 - e := ⟨(23 - e).toNat, by omega⟩
  have hcq : (c : ℚ) = ((c * 2 ^ k : ℤ) : ℚ) * (2 : ℚ) ^ (e - 23) := by
    push_cast
    rw [mul_assoc, ← zpow_natCast, ← zpow_add₀ (by norm_num : (2 : ℚ) ≠ 0), hk]
    norm_num
  rw [hcq] at hc ⊢
  exact roundF32_sub_quantum hf (by omega) h1 h2 _ hc

/-- Below 2^27 the spacing of binary32 values divides 360, so subtracting 360
from a binary32 value of at least 360 is exact. -/
theorem roundF32_sub_360 {h : ℚ} (hf : roundF32 h = h) (h1 : 360 ≤ h) (h2 : h < 2 ^ 27) :
    roundF32 (h - 360) = h - 360 := by
  have hpos : (0 : ℚ) < h := by linarith
  have habs : |h| = h := abs_of_pos hpos
  set e := Int.log 2 |h| with he
  have hlo : (2 : ℚ) ^ e ≤ h := by
    have := Int.zpow_log_le_self (b := 2) (by norm_num) (by rw [habs]; exact hpos : 0 < |h|)
    rw [habs] at this
    rw [he, habs]
    exact_mod_cast this
  have hhi : h < (2 : ℚ) ^ (e + 1) := by
    have := Int.lt_zpow_succ_log_self (b := 2) (by norm_num) |h|
    rw [habs] at this
    rw [he, habs]
    exact_mod_cast this
  have e8 : 8 ≤ e := by
    apply (Int.zpow_le_iff_le_log (b := 2) (by norm_num) (by rw [habs]; exact hpos)).mp
    rw [habs]
    norm_num
    linarith
  have e26 : e < 27 := by
    apply (Int.lt_zpow_iff_log_lt (b := 2) (by norm_num) (by rw [habs]; exact hpos)).mp
    rw [habs]
    norm_num
    exact h2
  obtain ⟨m, hm⟩ : ∃ m : ℤ, (360 : ℚ) = (m : ℚ) * (2 : ℚ) ^ (e - 23) := by
    rcases le_or_lt e 23 with h23 | h23
    · obtain ⟨k, hk⟩ : ∃ k : ℕ, (k : ℤ) = 23 - e := ⟨(23 - e).toNat, by omega⟩
      refine ⟨360 * 2 ^ k, ?_⟩
      push_cast
      rw [mul_assoc, ← zpow_natCast, ← zpow_add₀ (by norm_num : (2 : ℚ) ≠ 0), hk]
      norm_num
    · have : e = 24 ∨ e = 25 ∨ e = 26 := by omega
      rcases this with h' | h' | h'
      · exact ⟨180, by rw [h']; norm_num⟩
      · exact ⟨90, by rw [h']; norm_num⟩
      · exact ⟨45, by rw [h']; norm_num⟩
  have hc : |h - (m : ℚ) * (2 : ℚ) ^ (e - 23)| ≤ (2 : ℚ) ^ (e + 1) := by
    rw [← hm, abs_of_nonneg (by linarith)]
    linarith
  have := roundF32_sub_quantum hf (by omega) hlo hhi m hc
  rw [← hm] at this
  exact this

/-- Adding 360 to a binary32 value in `(-2^27, -360]` is exact. -/
theorem roundF32_add_360 {h : ℚ} (hf : roundF32 h = h) (h1 : h ≤ -360) (h2 : -(2 ^ 27) < h) :
    roundF32 (h + 360) = h + 360 := by
  have hf' : roundF32 (-h) = -h := by rw [roundF32_neg, hf]
  have := roundF32_sub_360 hf' (by linarith) (by linarith)
  have e : h + 360 = -(-h - 360) := by ring
  rw [e, roundF32_neg, this]

/-- Every rounded value is a binary32 value. -/
theorem roundF32_idem (x : ℚ) : roundF32 (roundF32 x) = roundF32 x := by
  rcases eq_or_ne x 0 with rfl | hx0
  · rw [roundF32_zero, roundF32_zero]
  have hpos : 0 < |x| := abs_pos.mpr hx0
  have hu := ulpF32_pos x
  have hlog : |x| < (2 : ℚ) ^ (Int.log 2 |x| + 1) := by
    have := Int.lt_zpow_succ_log_self (b := 2) (by norm_num) |x|
    exact_mod_cast this
  have hexp : Int.log 2 |x| ≤ expF32 x ∧ -126 ≤ expF32 x := by
    unfold expF32
    rw [if_neg hx0]
    exact ⟨le_max_left _ _, le_max_right _ _⟩
  have hlt : |x| < (2 : ℚ) ^ (expF32 x + 1) :=
    lt_of_lt_of_le hlog (zpow_le_zpow_right₀ (by norm_num) (by omega))
  have hq : |x / ulpF32 x| < 2 ^ 24 := by
    rw [abs_div, abs_of_pos hu, div_lt_iff₀ hu]
    have : (2 : ℚ) ^ (expF32 x + 1) = 2 ^ 24 * ulpF32 x := by
      unfold ulpF32
      rw [← zpow_natCast, ← zpow_add₀ (by norm_num : (2 : ℚ) ≠ 0)]
      congr 1
      push_cast
      ring
    rw [← this]
    exact hlt
  have herr := roundHalfEven_error (x / ulpF32 x)
  have hz : |roundHalfEven (x / ulpF32 x)| ≤ 2 ^ 24 := by
    have h1 : |((roundHalfEven (x / ulpF32 x) : ℤ) : ℚ)| < 2 ^ 24 + 1 := by
      have := abs_sub_abs_le_abs_sub ((roundHalfEven (x / ulpF32 x) : ℤ) : ℚ) (x / ulpF32 x)
      linarith
    have h2 : |roundHalfEven (x / ulpF32 x)| < 2 ^ 24 + 1 := by exact_mod_cast h1
    omega
  have := roundF32_int_mul_zpow (roundHalfEven (x / ulpF32 x)) (expF32 x - 23) (by omega) hz
  unfold roundF32 ulpF32 at this ⊢
  exact this

/-- The rounded distance to a candidate is within 2^-16 of the exact one. -/
theorem diffF32_error {x : ℚ} (hx : |x| < 512) : |(|roundF32 x| - |x|)| ≤ 1 / 65536 := by
  have h1 := roundF32_error x
  have h2 : ulpF32 x ≤ (2 : ℚ) ^ ((8 : ℤ) - 23) :=
    ulpF32_le (by norm_num) (by norm_num; exact hx)
  have h3 := abs_abs_sub_abs_le_abs_sub (roundF32 x) x
  norm_num at h2
  linarith

/-! ## Facts about the normalisation loops -/

theorem addLoop_step (fuel : ℕ) {h : ℚ} (hneg : h < 0) :
    addLoop (fuel + 1) h = addLoop fuel (roundF32 (h + 360)) := by
  rw [addLoop, if_pos hneg]

theorem addLoop_exit (fuel : ℕ) {h : ℚ} (h0 : 0 ≤ h) : addLoop (fuel + 1) h = some h := by
  rw [addLoop, if_neg (not_lt.mpr h0)]

theorem subLoop_step (fuel : ℕ) {h : ℚ} (hge : 360 ≤ h) :
    subLoop (fuel + 1) h = subLoop fuel (roundF32 (h - 360)) := by
  rw [subLoop, if_pos hge]

theorem subLoop_exit (fuel : ℕ) {h : ℚ} (h1 : h < 360) : subLoop (fuel + 1) h = some h := by
  rw [subLoop, if_neg (not_le.mpr h1)]

/-- A heading already in `[0, 360)` passes both loops unchanged. -/
theorem normalizeHeading_of_mem (fuel : ℕ) {h : ℚ} (h0 : 0 ≤ h) (h1 : h < 360) :
    normalizeHeading (fuel + 1) h = some h := by
  unfold normalizeHeading
  rw [addLoop_exit fuel h0, Option.some_bind, subLoop_exit fuel h1]

theorem addLoop_nonneg : ∀ (fuel : ℕ) (h v : ℚ), addLoop fuel h = some v → 0 ≤ v := by
  intro fuel
  induction fuel with
  | zero =>
    intro h v hv
    simp [addLoop] at hv
  | succ n ih =>
    intro h v hv
    by_cases hneg : h < 0
    · rw [addLoop_step n hneg] at hv
      exact ih _ _ hv
    · rw [addLoop_exit n (not_lt.mp hneg)] at hv
      cases hv
      exact not_lt.mp hneg

theorem subLoop_range : ∀ (fuel : ℕ) (h v : ℚ), 0 ≤ h → subLoop fuel h = some v →
    0 ≤ v ∧ v < 360 := by
  intro fuel
  induction fuel with
  | zero =>
    intro h v _ hv
    simp [subLoop] at hv
  | succ n ih =>
    intro h v h0 hv
    by_cases hge : 360 ≤ h
    · rw [subLoop_step n hge] at hv
      exact ih _ _ (roundF32_nonneg (by linarith)) hv
    · rw [subLoop_exit n (not_le.mp hge)] at hv
      cases hv
      exact ⟨h0, not_le.mp hge⟩

/-- Whenever both loops exit, the value they leave is in `[0, 360)`. -/
theorem normalizeHeading_range {fuel : ℕ} {h v : ℚ} (hv : normalizeHeading fuel h = some v) :
    0 ≤ v ∧ v < 360 := by
  unfold normalizeHeading at hv
  cases ha : addLoop fuel h with
  | none => rw [ha] at hv; simp at hv
  | some a =>
    rw [ha, Option.some_bind] at hv
    exact subLoop_range fuel a v (addLoop_nonneg fuel h a ha) hv

theorem addLoop_f32 : ∀ (fuel : ℕ) (h v : ℚ), roundF32 h = h → addLoop fuel h = some v →
    roundF32 v = v := by
  intro fuel
  induction fuel with
  | zero =>
    intro h v _ hv
    simp [addLoop] at hv
  | succ n ih =>
    intro h v hf hv
    by_cases hneg : h < 0
    · rw [addLoop_step n hneg] at hv
      exact ih _ _ (roundF32_idem _) hv
    · rw [addLoop_exit n (not_lt.mp hneg)] at hv
      cases hv
      exact hf

theorem subLoop_f32 : ∀ (fuel : ℕ) (h v : ℚ), roundF32 h = h → subLoop fuel h = some v →
    roundF32 v = v := by
  intro fuel
  induction fuel with
  | zero =>
    intro h v _ hv
    simp [subLoop] at hv
  | succ n ih =>
    intro h v hf hv
    by_cases hge : 360 ≤ h
    · rw [subLoop_step n hge] at hv
      exact ih _ _ (roundF32_idem _) hv
    · rw [subLoop_exit n (not_le.mp hge)] at hv
      cases hv
      exact hf

/-- The loops leave a binary32 value when the pose heading is one. -/
theorem normalizeHeading_f32 {fuel : ℕ} {h v : ℚ} (hf : roundF32 h = h)
    (hv : normalizeHeading fuel h = some v) : roundF32 v = v := by
  unfold normalizeHeading at hv
  cases ha : addLoop fuel h with
  | none => rw [ha] at hv; simp at hv
  | some a =>
    rw [ha, Option.some_bind] at hv
    exact subLoop_f32 fuel a v (addLoop_f32 fuel h a hf ha) hv

/-- Below 2^33 in magnitude the rounding error of one step is at most 256. -/
theorem roundF32_error_256 {x : ℚ} (hx : |x| < 2 ^ 33) : |roundF32 x - x| ≤ 256 := by
  have h1 := roundF32_error x
  have h2 : ulpF32 x ≤ (2 : ℚ) ^ ((32 : ℤ) - 23) :=
    ulpF32_le (by norm_num) (by norm_num; exact hx)
  norm_num at h2
  linarith

theorem addLoop_terminates : ∀ (n : ℕ) (h : ℚ), -(2 ^ 33) ≤ h → h < 0 → -h ≤ 104 * (n : ℚ) →
    ∃ v : ℚ, 0 ≤ v ∧ v < 616 ∧ ∀ fuel, n + 1 ≤ fuel → addLoop fuel h = some v := by
  intro n
  induction n with
  | zero =>
    intro h _ hneg hn
    norm_num at hn
    linarith
  | succ n ih =>
    intro h hlo hneg hn
    push_cast at hn
    have hx : |h + 360| < 2 ^ 33 := by
      rw [abs_lt]
      constructor <;> norm_num <;> linarith
    obtain ⟨e1, e2⟩ := abs_le.mp (roundF32_error_256 hx)
    by_cases hv : roundF32 (h + 360) < 0
    · obtain ⟨v, v0, v1, hfuel⟩ := ih (roundF32 (h + 360)) (by linarith) hv (by linarith)
      refine ⟨v, v0, v1, fun fuel hf => ?_⟩
      obtain ⟨m, rfl⟩ : ∃ m, fuel = m + 1 := ⟨fuel - 1, by omega⟩
      rw [addLoop_step m hneg]
      exact hfuel m (by omega)
    · refine ⟨roundF32 (h + 360), not_lt.mp hv, by linarith, fun fuel hf => ?_⟩
      obtain ⟨m, rfl⟩ : ∃ m, fuel = m + 1 := ⟨fuel - 1, by omega⟩
      obtain ⟨m', rfl⟩ : ∃ m', m = m' + 1 := ⟨m - 1, by omega⟩
      rw [addLoop_step (m' + 1) hneg, addLoop_exit m' (not_lt.mp hv)]

theorem subLoop_terminates : ∀ (n : ℕ) (h : ℚ), 0 ≤ h → h ≤ 2 ^ 33 → h < 360 + 104 * (n : ℚ) →
    ∃ v : ℚ, 0 ≤ v ∧ v < 360 ∧ ∀ fuel, n + 1 ≤ fuel → subLoop fuel h = some v := by
  intro n
  induction n with
  | zero =>
    intro h h0 _ hn
    norm_num at hn
    refine ⟨h, h0, hn, fun fuel hf => ?_⟩
    obtain ⟨m, rfl⟩ : ∃ m, fuel = m + 1 := ⟨fuel - 1, by omega⟩
    exact subLoop_exit m hn
  | succ n ih =>
    intro h h0 hhi hn
    push_cast at hn
    by_cases hge : 360 ≤ h
    · have hx : |h - 360| < 2 ^ 33 := by
        rw [abs_lt]
        constructor <;> norm_num <;> linarith
      obtain ⟨e1, e2⟩ := abs_le.mp (roundF32_error_256 hx)
      have hnn : 0 ≤ roundF32 (h - 360) := roundF32_nonneg (by linarith)
      obtain ⟨v, v0, v1, hfuel⟩ := ih (roundF32 (h - 360)) hnn (by linarith) (by linarith)
      refine ⟨v, v0, v1, fun fuel hf => ?_⟩
      obtain ⟨m, rfl⟩ : ∃ m, fuel = m + 1 := ⟨fuel - 1, by omega⟩
      rw [subLoop_step m hge]
      exact hfuel m (by omega)
    · refine ⟨h, h0, not_le.mp hge, fun fuel hf => ?_⟩
      obtain ⟨m, rfl⟩ : ∃ m, fuel = m + 1 := ⟨fuel - 1, by omega⟩
      exact subLoop_exit m (not_le.mp hge)

/-- For a heading of magnitude at most 2^33 both loops exit, with a value in
`[0, 360)`, for every large enough iteration budget. -/
theorem normalizeHeading_terminates {h : ℚ} (hh : |h| ≤ 2 ^ 33) :
    ∃ (n : ℕ) (v : ℚ), 0 ≤ v ∧ v < 360 ∧ ∀ fuel, n ≤ fuel → normalizeHeading fuel h = some v := by
  obtain ⟨hlo, hhi⟩ := abs_le.mp hh
  have key : ∃ (a : ℕ) (w : ℚ), 0 ≤ w ∧ w ≤ 2 ^ 33 ∧
      ∀ fuel, a + 1 ≤ fuel → addLoop fuel h = some w := by
    by_cases hneg : h < 0
    · obtain ⟨a, ha⟩ := exists_nat_ge (-h / 104)
      have ha2 : -h ≤ 104 * (a : ℚ) := by
        rw [div_le_iff₀ (by norm_num)] at ha
        linarith
      obtain ⟨w, w0, w1, hw⟩ := addLoop_terminates a h hlo hneg ha2
      exact ⟨a, w, w0, by norm_num; linarith, hw⟩
    · refine ⟨0, h, not_lt.mp hneg, hhi, fun fuel hf => ?_⟩
      obtain ⟨m, rfl⟩ : ∃ m, fuel = m + 1 := ⟨fuel - 1, by omega⟩
      exact addLoop_exit m (not_lt.mp hneg)
  obtain ⟨a, w, w0, w1, hw⟩ := key
  obtain ⟨b, hb⟩ := exists_nat_gt ((w - 360) / 104)
  have hb2 : w < 360 + 104 * (b : ℚ) := by
    rw [div_lt_iff₀ (by norm_num)] at hb
    linarith
  obtain ⟨v, v0, v1, hv⟩ := subLoop_terminates b w w0 w1 hb2
  refine ⟨max (a + 1) (b + 1), v, v0, v1, fun fuel hf => ?_⟩
  unfold normalizeHeading
  rw [hw fuel (le_trans (le_max_left _ _) hf), Option.some_bind]
  exact hv fuel (le_trans (le_max_right _ _) hf)

/-! ## Runs of the loops at particular binary32 headings -/

/-- The difference `2^27 + 40` lies halfway between the binary32 neighbours
`2^27 + 32` and `2^27 + 48` and is rounded to the even one. -/
theorem roundF32_tie_above_2_27 : roundF32 (134218128 - 360) = 134217760 := by
  have hx : (134218128 - 360 : ℚ) = 134217768 := by norm_num
  have he : expF32 134217768 = 27 :=
    expF32_eq (by norm_num) (by rw [abs_of_pos (by norm_num)]; norm_num)
      (by rw [abs_of_pos (by norm_num)]; norm_num)
  have hf : roundHalfEven ((134217768 : ℚ) / (2 : ℚ) ^ ((27 : ℤ) - 23)) = 8388610 :=
    roundHalfEven_tie_even (by norm_num) (by norm_num)
  rw [hx, roundF32_eval he hf]
  norm_num

theorem subLoop_exact : ∀ (n : ℕ) (r : ℚ), 0 ≤ r → r < 360 →
    (∀ j : ℕ, j < n → roundF32 (r + 360 * (j : ℚ)) = r + 360 * (j : ℚ)) →
    ∀ fuel, n + 1 ≤ fuel → subLoop fuel (r + 360 * (n : ℚ)) = some r := by
  intro n
  induction n with
  | zero =>
    intro r _ r1 _ fuel hf
    obtain ⟨m, rfl⟩ : ∃ m, fuel = m + 1 := ⟨fuel - 1, by omega⟩
    simp only [Nat.cast_zero, mul_zero, add_zero]
    exact subLoop_exit m r1
  | succ n ih =>
    intro r r0 r1 hex fuel hf
    obtain ⟨m, rfl⟩ : ∃ m, fuel = m + 1 := ⟨fuel - 1, by omega⟩
    have hn : (0 : ℚ) ≤ n := Nat.cast_nonneg n
    have hge : (360 : ℚ) ≤ r + 360 * ((n + 1 : ℕ) : ℚ) := by
      push_cast
      linarith
    have hstep : r + 360 * ((n + 1 : ℕ) : ℚ) - 360 = r + 360 * (n : ℚ) := by
      push_cast
      ring
    rw [subLoop_step m hge, hstep, hex n (by omega)]
    exact ih r r0 r1 (fun j hj => hex j (by omega)) m (by omega)

/-- From `2^27 + 400 = 48 + 360 * 372828`, a binary32 value, the second loop
loses 8 in its first step and ends at 40. -/
theorem normalizeHeading_above_2_27 (fuel : ℕ) (hf : 372829 ≤ fuel) :
    normalizeHeading fuel 134218128 = some 40 := by
  obtain ⟨m, rfl⟩ : ∃ m, fuel = m + 3 := ⟨fuel - 3, by omega⟩
  have hex : ∀ j : ℕ, j < 372826 →
      roundF32 ((40 : ℚ) + 360 * (j : ℚ)) = (40 : ℚ) + 360 * (j : ℚ) := by
    intro j hj
    have := roundF32_int_mul_pow (5 + 45 * (j : ℤ)) 3 (by rw [abs_le]; constructor <;> omega)
    have e : (((5 + 45 * (j : ℤ) : ℤ) : ℚ)) * (2 : ℚ) ^ 3 = (40 : ℚ) + 360 * (j : ℚ) := by
      push_cast
      ring
    rw [e] at this
    exact this
  have h2 : roundF32 (134217760 - 360) = 134217400 := by
    have := roundF32_int_mul_pow 16777175 3 (by norm_num)
    norm_num at this ⊢
    exact this
  have hrun := subLoop_exact 372826 40 (by norm_num) (by norm_num) hex (m + 1) (by omega)
  have e : (40 : ℚ) + 360 * ((372826 : ℕ) : ℚ) = 134217400 := by norm_num
  rw [e] at hrun
  unfold normalizeHeading
  rw [addLoop_exit (m + 2) (by norm_num), Option.some_bind, subLoop_step (m + 2) (by norm_num),
    roundF32_tie_above_2_27, subLoop_step (m + 1) (by norm_num), h2]
  exact hrun

/-- A candidate strictly closer than the best so far replaces it. -/
theorem scanStep_take {h d : ℚ} {s : ScanState} {c : ℤ} (hd : |h - (c : ℚ)| = d)
    (hlt : d < s.min_diff) : scanStep h s c = { nearest := (c : ℚ), min_diff := d } := by
  unfold scanStep
  simp only [hd, if_pos hlt]

/-- A candidate that is not strictly closer leaves the state unchanged. -/
theorem scanStep_keep {h d : ℚ} {s : ScanState} {c : ℤ} (hd : |h - (c : ℚ)| = d)
    (hge : s.min_diff ≤ d) : scanStep h s c = s := by
  unfold scanStep
  simp only [hd, if_neg (not_lt.mpr hge)]

theorem abs_sub_int_of_le {h : ℚ} {c : ℤ} (hc : h ≤ (c : ℚ)) : |h - (c : ℚ)| = (c : ℚ) - h := by
  rw [abs_of_nonpos (by linarith)]
  ring

theorem abs_sub_int_of_ge {h : ℚ} {c : ℤ} (hc : (c : ℚ) ≤ h) : |h - (c : ℚ)| = h - (c : ℚ) :=
  abs_of_nonneg (by linarith)

/-- The state of the `for` loop on a normalised heading once the candidates
0, 90, 180 and 270 have been visited. -/
theorem scan_first_four {h : ℚ} (h0 : 0 ≤ h) (h1 : h < 360) :
    [(0 : ℤ), 90, 180, 270].foldl (scanStep h) { nearest := 0, min_diff := 360 } =
      if h ≤ 45 then { nearest := 0, min_diff := h }
      else if h ≤ 135 then { nearest := 90, min_diff := |h - 90| }
      else if h ≤ 225 then { nearest := 180, min_diff := |h - 180| }
      else { nearest := 270, min_diff := |h - 270| } := by
  have c0 : ((0 : ℤ) : ℚ) = 0 := by norm_num
  have c90 : ((90 : ℤ) : ℚ) = 90 := by norm_num
  have c180 : ((180 : ℤ) : ℚ) = 180 := by norm_num
  have c270 : ((270 : ℤ) : ℚ) = 270 := by norm_num
  have e0 : scanStep h { nearest := 0, min_diff := 360 } (0 : ℤ)
      = { nearest := 0, min_diff := h } := by
    rw [scanStep_take (abs_sub_int_of_ge (by rw [c0]; exact h0))
      (by rw [c0]; simp only []; linarith)]
    simp only [c0, sub_zero]
  simp only [List.foldl, e0]
  by_cases k0 : h ≤ 45
  · rw [if_pos k0]
    have e90 : scanStep h ({ nearest := 0, min_diff := h } : ScanState) (90 : ℤ)
        = ({ nearest := 0, min_diff := h } : ScanState) := by
      have hd : |h - ((90 : ℤ) : ℚ)| = 90 - h := by
        rw [abs_sub_int_of_le (by rw [c90]; linarith), c90]
      exact scanStep_keep hd (by simp only []; linarith)
    have e180 : scanStep h ({ nearest := 0, min_diff := h } : ScanState) (180 : ℤ)
        = ({ nearest := 0, min_diff := h } : ScanState) := by
      have hd : |h - ((180 : ℤ) : ℚ)| = 180 - h := by
        rw [abs_sub_int_of_le (by rw [c180]; linarith), c180]
      exact scanStep_keep hd (by simp only []; linarith)
    have e270 : scanStep h ({ nearest := 0, min_diff := h } : ScanState) (270 : ℤ)
        = ({ nearest := 0, min_diff := h } : ScanState) := by
      have hd : |h - ((270 : ℤ) : ℚ)| = 270 - h := by
        rw [abs_sub_int_of_le (by rw [c270]; linarith), c270]
      exact scanStep_keep hd (by simp only []; linarith)
    simp only [e90, e180, e270]
  by_cases k1 : h ≤ 135
  · rw [if_neg k0, if_pos k1]
    have l1 : 45 < h := not_le.mp k0
    have e90 : scanStep h ({ nearest := 0, min_diff := h } : ScanState) (90 : ℤ)
        = ({ nearest := 90, min_diff := |h - 90| } : ScanState) := by
      have hd : |h - ((90 : ℤ) : ℚ)| = |h - 90| := by rw [c90]
      have hlt : |h - 90| < h := by
        rw [abs_lt]
        constructor <;> linarith
      rw [scanStep_take hd hlt, c90]
    have e180 : scanStep h ({ nearest := 90, min_diff := |h - 90| } : ScanState) (180 : ℤ)
        = ({ nearest := 90, min_diff := |h - 90| } : ScanState) := by
      have hd : |h - ((180 : ℤ) : ℚ)| = 180 - h := by
        rw [abs_sub_int_of_le (by rw [c180]; linarith), c180]
      have hb : |h - 90| ≤ 180 - h := by
        rw [abs_le]
        constructor <;> linarith
      exact scanStep_keep hd hb
    have e270 : scanStep h ({ nearest := 90, min_diff := |h - 90| } : ScanState) (270 : ℤ)
        = ({ nearest := 90, min_diff := |h - 90| } : ScanState) := by
      have hd : |h - ((270 : ℤ) : ℚ)| = 270 - h := by
        rw [abs_sub_int_of_le (by rw [c270]; linarith), c270]
      have hb : |h - 90| ≤ 270 - h := by
        rw [abs_le]
        constructor <;> linarith
      exact scanStep_keep hd hb
    simp only [e90, e180, e270]
  by_cases k2 : h ≤ 225
  · rw [if_neg k0, if_neg k1, if_pos k2]
    have l2 : 135 < h := not_le.mp k1
    have e90 : scanStep h ({ nearest := 0, min_diff := h } : ScanState) (90 : ℤ)
        = ({ nearest := 90, min_diff := h - 90 } : ScanState) := by
      have hd : |h - ((90 : ℤ) : ℚ)| = h - 90 := by
        rw [abs_sub_int_of_ge (by rw [c90]; linarith), c90]
      rw [scanStep_take hd (by simp only []; linarith), c90]
    have e180 : scanStep h ({ nearest := 90, min_diff := h - 90 } : ScanState) (180 : ℤ)
        = ({ nearest := 180, min_diff := |h - 180| } : ScanState) := by
      have hd : |h - ((180 : ℤ) : ℚ)| = |h - 180| := by rw [c180]
      have hlt : |h - 180| < h - 90 := by
        rw [abs_lt]
        constructor <;> linarith
      rw [scanStep_take hd hlt, c180]
    have e270 : scanStep h ({ nearest := 180, min_diff := |h - 180| } : ScanState) (270 : ℤ)
        = ({ nearest := 180, min_diff := |h - 180| } : ScanState) := by
      have hd : |h - ((270 : ℤ) : ℚ)| = 270 - h := by
        rw [abs_sub_int_of_le (by rw [c270]; linarith), c270]
      have hb : |h - 180| ≤ 270 - h := by
        rw [abs_le]
        constructor <;> linarith
      exact scanStep_keep hd hb
    simp only [e90, e180, e270]
  rw [if_neg k0, if_neg k1, if_neg k2]
  have l3 : 225 < h := not_le.mp k2
  have e90 : scanStep h ({ nearest := 0, min_diff := h } : ScanState) (90 : ℤ)
      = ({ nearest := 90, min_diff := h - 90 } : ScanState) := by
    have hd : |h - ((90 : ℤ) : ℚ)| = h - 90 := by
      rw [abs_sub_int_of_ge (by rw [c90]; linarith), c90]
    rw [scanStep_take hd (by simp only []; linarith), c90]
  have e180 : scanStep h ({ nearest := 90, min_diff := h - 90 } : ScanState) (180 : ℤ)
      = ({ nearest := 180, min_diff := h - 180 } : ScanState) := by
    have hd : |h - ((180 : ℤ) : ℚ)| = h - 180 := by
      rw [abs_sub_int_of_ge (by rw [c180]; linarith), c180]
    rw [scanStep_take hd (by simp only []; linarith), c180]
  have e270 : scanStep h ({ nearest := 180, min_diff := h - 180 } : ScanState) (270 : ℤ)
      = ({ nearest := 270, min_diff := |h - 270| } : ScanState) := by
    have hd : |h - ((270 : ℤ) : ℚ)| = |h - 270| := by rw [c270]
    have hlt : |h - 270| < h - 180 := by
      rw [abs_lt]
      constructor <;> linarith
    rw [scanStep_take hd hlt, c270]
  simp only [e90, e180, e270]

/-- The state left by the `for` loop on a normalised heading. -/
theorem scan_result {h : ℚ} (h0 : 0 ≤ h) (h1 : h < 360) :
    cardinals.foldl (scanStep h) { nearest := 0, min_diff := 360 } =
      if h ≤ 45 then { nearest := 0, min_diff := h }
      else if h ≤ 135 then { nearest := 90, min_diff := |h - 90| }
      else if h ≤ 225 then { nearest := 180, min_diff := |h - 180| }
      else if h ≤ 315 then { nearest := 270, min_diff := |h - 270| }
      else { nearest := 360, min_diff := |h - 360| } := by
  have c360 : ((360 : ℤ) : ℚ) = 360 := by norm_num
  have hd : |h - ((360 : ℤ) : ℚ)| = 360 - h := by
    rw [abs_sub_int_of_le (by rw [c360]; linarith), c360]
  have hsplit : cardinals = [(0 : ℤ), 90, 180, 270] ++ [360] := rfl
  rw [hsplit, List.foldl_append, scan_first_four h0 h1]
  simp only [List.foldl]
  by_cases k0 : h ≤ 45
  · rw [if_pos k0, if_pos k0]
    exact scanStep_keep hd (by simp only []; linarith)
  by_cases k1 : h ≤ 135
  · rw [if_neg k0, if_pos k1, if_neg k0, if_pos k1]
    refine scanStep_keep hd ?_
    simp only []
    rw [abs_le]
    constructor <;> linarith
  by_cases k2 : h ≤ 225
  · rw [if_neg k0, if_neg k1, if_pos k2, if_neg k0, if_neg k1, if_pos k2]
    refine scanStep_keep hd ?_
    simp only []
    rw [abs_le]
    constructor <;> linarith
  rw [if_neg k0, if_neg k1, if_neg k2, if_neg k0, if_neg k1, if_neg k2]
  by_cases k3 : h ≤ 315
  · rw [if_pos k3]
    refine scanStep_keep hd ?_
    simp only []
    rw [abs_le]
    constructor <;> linarith
  · rw [if_neg k3]
    have l4 : 315 < h := not_le.mp k3
    have hlt : 360 - h < |h - 270| := by
      rw [lt_abs]
      left
      linarith
    rw [scanStep_take hd hlt, c360, abs_of_nonpos (by linarith : h - 360 ≤ 0)]
    congr 1
    ring

/-- Closed form of the search on a normalised heading. -/
theorem findNearest_eq {h : ℚ} (h0 : 0 ≤ h) (h1 : h < 360) :
    findNearest h =
      if h ≤ 45 then 0 else if h ≤ 135 then 90 else if h ≤ 225 then 180
      else if h ≤ 315 then 270 else 0 := by
  unfold findNearest
  simp only [scan_result h0 h1]
  by_cases k0 : h ≤ 45
  · simp only [if_pos k0]
    norm_num
  by_cases k1 : h ≤ 135
  · simp only [if_neg k0, if_pos k1]
    norm_num
  by_cases k2 : h ≤ 225
  · simp only [if_neg k0, if_neg k1, if_pos k2]
    norm_num
  by_cases k3 : h ≤ 315
  · simp only [if_neg k0, if_neg k1, if_neg k2, if_pos k3]
    norm_num
  simp only [if_neg k0, if_neg k1, if_neg k2, if_neg k3, if_true]

/-! ## Facts about angular distance -/

/-- A value in `[0, 360)` that differs from `x` by whole turns is `reduceMod360 x`. -/
theorem reduceMod360_unique {x r : ℚ} (k : ℤ) (hk : r - x = 360 * (k : ℚ))
    (h0 : 0 ≤ r) (h1 : r < 360) : reduceMod360 x = r := by
  have hf : ⌊x / 360⌋ = -k := by
    rw [Int.floor_eq_iff]
    push_cast
    constructor
    · rw [le_div_iff₀ (by norm_num)]
      linarith
    · rw [div_lt_iff₀ (by norm_num)]
      linarith
  unfold reduceMod360
  rw [hf]
  push_cast
  linarith


theorem reduceMod360_nonneg (d : ℚ) : 0 ≤ reduceMod360 d := by
  unfold reduceMod360
  have := Int.floor_le (d / 360)
  rw [le_div_iff₀ (by norm_num)] at this
  linarith

theorem reduceMod360_lt (d : ℚ) : reduceMod360 d < 360 := by
  unfold reduceMod360
  have := Int.lt_floor_add_one (d / 360)
  rw [div_lt_iff₀ (by norm_num)] at this
  linarith

theorem reduceMod360_of_mem {x : ℚ} (x0 : 0 ≤ x) (x1 : x < 360) : reduceMod360 x = x :=
  reduceMod360_unique 0 (by simp) x0 x1

theorem reduceMod360_add_turns (x : ℚ) (k : ℤ) :
    reduceMod360 (x + 360 * (k : ℚ)) = reduceMod360 x := by
  apply reduceMod360_unique (-⌊x / 360⌋ - k) _ (reduceMod360_nonneg x) (reduceMod360_lt x)
  unfold reduceMod360
  push_cast
  ring

/-- From a non-negative binary32 heading below 2^27 every subtraction is exact
and the second loop leaves the residue mod 360. -/
theorem subLoop_f32_run : ∀ (n : ℕ) (h : ℚ), roundF32 h = h → 0 ≤ h → h < 2 ^ 27 →
    h < 360 * ((n : ℚ) + 1) →
    ∀ fuel, n + 1 ≤ fuel → subLoop fuel h = some (reduceMod360 h) := by
  intro n
  induction n with
  | zero =>
    intro h _ h0 _ hn fuel hfuel
    norm_num at hn
    obtain ⟨m, rfl⟩ : ∃ m, fuel = m + 1 := ⟨fuel - 1, by omega⟩
    rw [subLoop_exit m hn, reduceMod360_of_mem h0 hn]
  | succ n ih =>
    intro h hf h0 h27 hn fuel hfuel
    push_cast at hn
    obtain ⟨m, rfl⟩ : ∃ m, fuel = m + 1 := ⟨fuel - 1, by omega⟩
    by_cases hge : 360 ≤ h
    · have hex := roundF32_sub_360 hf hge h27
      have hf' : roundF32 (h - 360) = h - 360 := hex
      have hred : reduceMod360 (h - 360) = reduceMod360 h := by
        have := reduceMod360_add_turns h (-1)
        push_cast at this
        rw [← this]
        congr 1
        ring
      rw [subLoop_step m hge, hex, ih (h - 360) hf' (by linarith) (by linarith) (by linarith)
        m (by omega), hred]
    · have h1 : h < 360 := not_le.mp hge
      rw [subLoop_exit m h1, reduceMod360_of_mem h0 h1]

/-- From a negative binary32 heading above -2^27 every addition but the last
is exact, and the first loop leaves the rounded residue mod 360. -/
theorem addLoop_f32_run : ∀ (n : ℕ) (h : ℚ), roundF32 h = h → h < 0 → -(2 ^ 27) < h →
    -h ≤ 360 * (n : ℚ) →
    ∀ fuel, n + 1 ≤ fuel → addLoop fuel h = some (roundF32 (reduceMod360 h)) := by
  intro n
  induction n with
  | zero =>
    intro h _ hneg _ hn
    norm_num at hn
    linarith
  | succ n ih =>
    intro h hf hneg h27 hn fuel hfuel
    push_cast at hn
    obtain ⟨m, rfl⟩ : ∃ m, fuel = m + 1 := ⟨fuel - 1, by omega⟩
    obtain ⟨m', rfl⟩ : ∃ m', m = m' + 1 := ⟨m - 1, by omega⟩
    have hred : reduceMod360 (h + 360) = reduceMod360 h := by
      have := reduceMod360_add_turns h 1
      push_cast at this
      rw [← this]
      congr 1
      ring
    rw [addLoop_step (m' + 1) hneg]
    by_cases hle : h ≤ -360
    · have hex := roundF32_add_360 hf hle h27
      rw [hex]
      rcases lt_or_eq_of_le (show h + 360 ≤ 0 by linarith) with hx | hx
      · rw [ih (h + 360) hex hx (by linarith) (by linarith) (m' + 1) (by omega), hred]
      · rw [hx, addLoop_exit m' (le_refl 0), ← hred, hx,
          reduceMod360_of_mem (le_refl 0) (by norm_num), roundF32_zero]
    · have hx0 : 0 < h + 360 := by linarith
      have hx1 : h + 360 < 360 := by linarith
      rw [← hred, reduceMod360_of_mem hx0.le hx1]
      exact addLoop_exit m' (roundF32_nonneg hx0.le)

/-- For a binary32 heading below 2^27 in magnitude the loops leave what the
second loop makes of the rounded residue mod 360. -/
theorem normalizeHeading_f32_run {h : ℚ} (hf : roundF32 h = h) (h27 : |h| < 2 ^ 27) :
    ∃ (n : ℕ) (v : ℚ), (∀ fuel, n ≤ fuel → normalizeHeading fuel h = some v) ∧
      ∀ fuel, n ≤ fuel → subLoop fuel (roundF32 (reduceMod360 h)) = some v := by
  obtain ⟨hlo, hhi⟩ := abs_lt.mp h27
  have r0 := reduceMod360_nonneg h
  have r1 := reduceMod360_lt h
  have hx : |reduceMod360 h| < 2 ^ 33 := by
    rw [abs_of_nonneg r0]
    norm_num
    linarith
  obtain ⟨e1, e2⟩ := abs_le.mp (roundF32_error_256 hx)
  have f0 : 0 ≤ roundF32 (reduceMod360 h) := roundF32_nonneg r0
  obtain ⟨b, hb⟩ := exists_nat_gt ((roundF32 (reduceMod360 h) - 360) / 104)
  have hb2 : roundF32 (reduceMod360 h) < 360 + 104 * (b : ℚ) := by
    rw [div_lt_iff₀ (by norm_num)] at hb
    linarith
  obtain ⟨v, _, _, hv⟩ := subLoop_terminates b _ f0 (by norm_num; linarith) hb2
  rcases le_or_lt 0 h with hpos | hneg
  · obtain ⟨a, ha⟩ := exists_nat_gt (h / 360)
    have ha2 : h < 360 * ((a : ℚ) + 1) := by
      rw [div_lt_iff₀ (by norm_num)] at ha
      linarith
    have hrun := subLoop_f32_run a h hf hpos hhi ha2
    have hfr : roundF32 (reduceMod360 h) = reduceMod360 h :=
      subLoop_f32 (a + 1) h _ hf (hrun (a + 1) (le_refl _))
    refine ⟨max (a + 1) (b + 1), reduceMod360 h, fun fuel hfuel => ?_, fun fuel hfuel => ?_⟩
    · obtain ⟨m, rfl⟩ : ∃ m, fuel = m + 1 := ⟨fuel - 1, by omega⟩
      unfold normalizeHeading
      rw [addLoop_exit m hpos, Option.some_bind]
      exact hrun (m + 1) (le_trans (le_max_left _ _) hfuel)
    · obtain ⟨m, rfl⟩ : ∃ m, fuel = m + 1 := ⟨fuel - 1, by omega⟩
      rw [hfr]
      exact subLoop_exit m r1
  · obtain ⟨a, ha⟩ := exists_nat_ge (-h / 360)
    have ha2 : -h ≤ 360 * (a : ℚ) := by
      rw [div_le_iff₀ (by norm_num)] at ha
      linarith
    have hrun := addLoop_f32_run a h hf hneg hlo ha2
    refine ⟨max (a + 1) (b + 1), v, fun fuel hfuel => ?_, fun fuel hfuel => ?_⟩
    · unfold normalizeHeading
      rw [hrun fuel (le_trans (le_max_left _ _) hfuel), Option.some_bind]
      exact hv fuel (le_trans (le_max_right _ _) hfuel)
    · exact hv fuel (le_trans (le_max_right _ _) hfuel)

/-- Once `min_diff` is the distance of `nearest`, the `for` loop keeps exactly
the candidate a best-so-far scan keeps, and `min_diff` stays its distance. -/
theorem scan_fold_refines (h : ℚ) (cs : List ℤ) (s : ScanState)
    (hs : s.min_diff = |h - s.nearest|) :
    (cs.foldl (scanStep h) s).nearest
        = linearScan h s.nearest (cs.map fun (c : ℤ) => (c : ℚ)) ∧
      (cs.foldl (scanStep h) s).min_diff = |h - (cs.foldl (scanStep h) s).nearest| := by
  induction cs generalizing s with
  | nil => exact ⟨rfl, hs⟩
  | cons c cs ih =>
    simp only [List.foldl_cons, List.map_cons, linearScan]
    by_cases hlt : |h - (c : ℚ)| < s.min_diff
    · have hstep : scanStep h s c = { nearest := (c : ℚ), min_diff := |h - (c : ℚ)| } :=
        scanStep_take rfl hlt
      have hlt2 : |h - (c : ℚ)| < |h - s.nearest| := hs ▸ hlt
      rw [hstep, if_pos hlt2]
      exact ih { nearest := (c : ℚ), min_diff := |h - (c : ℚ)| } rfl
    · have hstep : scanStep h s c = s := scanStep_keep rfl (not_lt.mp hlt)
      have hlt2 : ¬ |h - (c : ℚ)| < |h - s.nearest| := hs ▸ hlt
      rw [hstep, if_neg hlt2]
      exact ih s hs

/-- First pass of the `for` loop on a normalised heading. -/
theorem scanStep_zero {h : ℚ} (h0 : 0 ≤ h) (h1 : h < 360) :
    scanStep h { nearest := 0, min_diff := 360 } (0 : ℤ) = { nearest := 0, min_diff := h } := by
  have hd : |h - ((0 : ℤ) : ℚ)| = h := by
    rw [Int.cast_zero, sub_zero, abs_of_nonneg h0]
  rw [scanStep_take hd (by simp only []; exact h1), Int.cast_zero]

theorem linearScan4_eq {x : ℚ} (x0 : 0 ≤ x) (x1 : x < 360) :
    linearScan4 x =
      if x ≤ 45 then 0 else if x ≤ 135 then 90 else if x ≤ 225 then 180 else 270 := by
  have hinv : ({ nearest := 0, min_diff := x } : ScanState).min_diff
      = |x - ({ nearest := 0, min_diff := x } : ScanState).nearest| := by
    simp only [sub_zero, abs_of_nonneg x0]
  have href := (scan_fold_refines x [90, 180, 270] { nearest := 0, min_diff := x } hinv).1
  have hfour := scan_first_four x0 x1
  rw [List.foldl_cons, scanStep_zero x0 x1] at hfour
  rw [hfour] at href
  simp only [List.map_cons, List.map_nil, Int.cast_ofNat] at href
  unfold linearScan4
  rw [← href]
  split_ifs <;> rfl

theorem linearScan5_eq_findNearest {x : ℚ} (x0 : 0 ≤ x) (x1 : x < 360) :
    linearScan5 x = findNearest x := by
  have hinv : ({ nearest := 0, min_diff := x } : ScanState).min_diff
      = |x - ({ nearest := 0, min_diff := x } : ScanState).nearest| := by
    simp only [sub_zero, abs_of_nonneg x0]
  have href := (scan_fold_refines x [90, 180, 270, 360] { nearest := 0, min_diff := x } hinv).1
  simp only [List.map_cons, List.map_nil, Int.cast_ofNat] at href
  unfold linearScan5 findNearest cardinals
  rw [List.foldl_cons, scanStep_zero x0 x1]
  simp only [href]

/-! ## The search with rounded differences -/

/-- Two comparisons agree when the compared values are approximated within
less than half their gap, or exactly. -/
theorem cmp_agree {a b fa fb δ : ℚ} (ha : |fa - a| ≤ δ) (hb : |fb - b| ≤ δ)
    (hm : 2 * δ < |a - b| ∨ (fa = a ∧ fb = b)) : (fa < fb ↔ a < b) := by
  rcases hm with hm | ⟨e1, e2⟩
  · obtain ⟨a1, a2⟩ := abs_le.mp ha
    obtain ⟨b1, b2⟩ := abs_le.mp hb
    rcases abs_cases (a - b) with ⟨e, _⟩ | ⟨e, _⟩
    · rw [e] at hm
      constructor <;> intro hlt <;> linarith
    · rw [e] at hm
      constructor <;> intro hlt <;> linarith
  · rw [e1, e2]

/-- Away from the midpoint of two candidates the exact distances differ by at
least 2. -/
theorem far_gap (h c c' : ℚ) (hcc : c + 90 ≤ c')
    (hfar : h ≤ (c + c') / 2 - 1 ∨ (c + c') / 2 + 1 ≤ h) :
    2 ≤ |(|h - c'| - |h - c|)| := by
  rcases abs_cases (h - c') with ⟨e1, _⟩ | ⟨e1, _⟩ <;>
  rcases abs_cases (h - c) with ⟨e2, _⟩ | ⟨e2, _⟩ <;>
  rw [e1, e2] <;>
  rcases hfar with hfar | hfar <;>
  first
    | (refine le_trans ?_ (le_abs_self _); linarith)
    | (refine le_trans ?_ (neg_le_abs _); linarith)

/-- For a binary32 heading in `[0, 360)` and two candidates at least 90 apart,
comparing the rounded distances gives the same result as comparing the exact
ones: near the midpoint both subtractions are exact, elsewhere the gap exceeds
the rounding error. -/
theorem pair_agree {h : ℚ} (hf : roundF32 h = h) (h0 : 0 ≤ h) (h360 : h < 360) (c c' e : ℤ)
    (hc0 : 0 ≤ c) (hcc : c + 90 ≤ c') (hc360 : c' ≤ 360) (he0 : 0 ≤ e) (he23 : e ≤ 23)
    (hlo : (2 : ℚ) ^ e ≤ ((c : ℚ) + (c' : ℚ)) / 2 - 1)
    (hhi : ((c : ℚ) + (c' : ℚ)) / 2 + 1 ≤ (2 : ℚ) ^ (e + 1)) :
    (|roundF32 (h - (c' : ℚ))| < |roundF32 (h - (c : ℚ))| ↔ |h - (c' : ℚ)| < |h - (c : ℚ)|) := by
  have q0 : (0 : ℚ) ≤ (c : ℚ) := by exact_mod_cast hc0
  have qcc : (c : ℚ) + 90 ≤ (c' : ℚ) := by exact_mod_cast hcc
  have q360 : (c' : ℚ) ≤ 360 := by exact_mod_cast hc360
  have b1 : |h - (c : ℚ)| < 512 := by
    rw [abs_lt]
    constructor <;> linarith
  have b2 : |h - (c' : ℚ)| < 512 := by
    rw [abs_lt]
    constructor <;> linarith
  apply cmp_agree (diffF32_error b2) (diffF32_error b1)
  by_cases hnear : ((c : ℚ) + (c' : ℚ)) / 2 - 1 < h ∧ h < ((c : ℚ) + (c' : ℚ)) / 2 + 1
  · obtain ⟨n1, n2⟩ := hnear
    right
    have hb1 : (2 : ℚ) ^ e ≤ h := by linarith
    have hb2 : h < (2 : ℚ) ^ (e + 1) := by linarith
    have x1 : roundF32 (h - (c : ℚ)) = h - (c : ℚ) := by
      apply roundF32_sub_exact hf he0 he23 hb1 hb2
      rw [abs_le]
      constructor <;> linarith
    have x2 : roundF32 (h - (c' : ℚ)) = h - (c' : ℚ) := by
      apply roundF32_sub_exact hf he0 he23 hb1 hb2
      rw [abs_le]
      constructor <;> linarith
    rw [x1, x2]
    exact ⟨rfl, rfl⟩
  · left
    have hfar : h ≤ ((c : ℚ) + (c' : ℚ)) / 2 - 1 ∨ ((c : ℚ) + (c' : ℚ)) / 2 + 1 ≤ h := by
      by_contra hcon
      push_neg at hcon
      exact hnear hcon
    have := far_gap h c c' qcc hfar
    linarith

/-- When every later candidate compares with every earlier one the same way
under rounded and exact distances, the two searches keep the same candidate. -/
theorem scanStepF32_refines (h : ℚ) : ∀ (cs : List ℤ) (p : ℤ),
    (∀ c ∈ cs, (|roundF32 (h - (c : ℚ))| < |roundF32 (h - (p : ℚ))| ↔
      |h - (c : ℚ)| < |h - (p : ℚ)|)) →
    cs.Pairwise (fun (p c : ℤ) => (|roundF32 (h - (c : ℚ))| < |roundF32 (h - (p : ℚ))| ↔
      |h - (c : ℚ)| < |h - (p : ℚ)|)) →
    (cs.foldl (scanStepF32 h) { nearest := (p : ℚ), min_diff := |roundF32 (h - (p : ℚ))| }).nearest
      = (cs.foldl (scanStep h) { nearest := (p : ℚ), min_diff := |h - (p : ℚ)| }).nearest := by
  intro cs
  induction cs with
  | nil => intro p _ _; rfl
  | cons c cs ih =>
    intro p hp hpw
    rw [List.pairwise_cons] at hpw
    have hpc := hp c (List.mem_cons_self c cs)
    simp only [List.foldl_cons]
    by_cases hlt : |h - (c : ℚ)| < |h - (p : ℚ)|
    · have e1 : scanStep h { nearest := (p : ℚ), min_diff := |h - (p : ℚ)| } c
          = { nearest := (c : ℚ), min_diff := |h - (c : ℚ)| } := scanStep_take rfl hlt
      have e2 : scanStepF32 h { nearest := (p : ℚ), min_diff := |roundF32 (h - (p : ℚ))| } c
          = { nearest := (c : ℚ), min_diff := |roundF32 (h - (c : ℚ))| } := by
        unfold scanStepF32
        simp only [if_pos (hpc.mpr hlt)]
      rw [e1, e2]
      exact ih c hpw.1 hpw.2
    · have e1 : scanStep h { nearest := (p : ℚ), min_diff := |h - (p : ℚ)| } c
          = { nearest := (p : ℚ), min_diff := |h - (p : ℚ)| } :=
        scanStep_keep rfl (not_lt.mp hlt)
      have e2 : scanStepF32 h { nearest := (p : ℚ), min_diff := |roundF32 (h - (p : ℚ))| } c
          = { nearest := (p : ℚ), min_diff := |roundF32 (h - (p : ℚ))| } := by
        unfold scanStepF32
        simp only [if_neg (fun hc => hlt (hpc.mp hc))]
      rw [e1, e2]
      exact ih p (fun c' hc' => hp c' (List.mem_cons_of_mem c hc')) hpw.2

/-- On every binary32 heading in `[0, 360)` the search with rounded
differences returns the same heading as the search with exact differences. -/
theorem findNearestF32_eq {h : ℚ} (hf : roundF32 h = h) (h0 : 0 ≤ h) (h360 : h < 360) :
    findNearestF32 h = findNearest h := by
  have p1 := pair_agree hf h0 h360 0 90 5 (by norm_num) (by norm_num) (by norm_num)
    (by norm_num) (by norm_num) (by norm_num) (by norm_num)
  have p2 := pair_agree hf h0 h360 0 180 6 (by norm_num) (by norm_num) (by norm_num)
    (by norm_num) (by norm_num) (by norm_num) (by norm_num)
  have p3 := pair_agree hf h0 h360 0 270 7 (by norm_num) (by norm_num) (by norm_num)
    (by norm_num) (by norm_num) (by norm_num) (by norm_num)
  have p4 := pair_agree hf h0 h360 0 360 7 (by norm_num) (by norm_num) (by norm_num)
    (by norm_num) (by norm_num) (by norm_num) (by norm_num)
  have p5 := pair_agree hf h0 h360 90 180 7 (by norm_num) (by norm_num) (by norm_num)
    (by norm_num) (by norm_num) (by norm_num) (by norm_num)
  have p6 := pair_agree hf h0 h360 90 270 7 (by norm_num) (by norm_num) (by norm_num)
    (by norm_num) (by norm_num) (by norm_num) (by norm_num)
  have p7 := pair_agree hf h0 h360 90 360 7 (by norm_num) (by norm_num) (by norm_num)
    (by norm_num) (by norm_num) (by norm_num) (by norm_num)
  have p8 := pair_agree hf h0 h360 180 270 7 (by norm_num) (by norm_num) (by norm_num)
    (by norm_num) (by norm_num) (by norm_num) (by norm_num)
  have p9 := pair_agree hf h0 h360 180 360 8 (by norm_num) (by norm_num) (by norm_num)
    (by norm_num) (by norm_num) (by norm_num) (by norm_num)
  have p10 := pair_agree hf h0 h360 270 360 8 (by norm_num) (by norm_num) (by norm_num)
    (by norm_num) (by norm_num) (by norm_num) (by norm_num)
  have hx0 : roundF32 (h - ((0 : ℤ) : ℚ)) = h := by
    rw [Int.cast_zero, sub_zero, hf]
  have e1 : scanStep h { nearest := 0, min_diff := 360 } (0 : ℤ)
      = { nearest := ((0 : ℤ) : ℚ), min_diff := |h - ((0 : ℤ) : ℚ)| } :=
    scanStep_take rfl (by rw [Int.cast_zero, sub_zero, abs_of_nonneg h0]; exact h360)
  have e2 : scanStepF32 h { nearest := 0, min_diff := 360 } (0 : ℤ)
      = { nearest := ((0 : ℤ) : ℚ), min_diff := |roundF32 (h - ((0 : ℤ) : ℚ))| } := by
    unfold scanStepF32
    simp only [hx0, abs_of_nonneg h0, if_pos h360]
  have href := scanStepF32_refines h [90, 180, 270, 360] 0
    (by
      intro c hc
      simp only [List.mem_cons, List.mem_singleton, List.not_mem_nil, or_false] at hc
      rcases hc with rfl | rfl | rfl | rfl
      · exact p1
      · exact p2
      · exact p3
      · exact p4)
    (by
      simp only [List.pairwise_cons, List.mem_cons, List.mem_singleton, List.not_mem_nil,
        or_false, forall_eq_or_imp, forall_eq, List.Pairwise.nil, and_true, IsEmpty.forall_iff,
        implies_true]
      exact ⟨⟨p5, p6, p7⟩, ⟨p8, p9⟩, p10⟩)
  have hF : cardinals.foldl (scanStepF32 h) { nearest := 0, min_diff := 360 }
      = [90, 180, 270, 360].foldl (scanStepF32 h)
          (scanStepF32 h { nearest := 0, min_diff := 360 } (0 : ℤ)) := rfl
  have hE : cardinals.foldl (scanStep h) { nearest := 0, min_diff := 360 }
      = [90, 180, 270, 360].foldl (scanStep h)
          (scanStep h { nearest := 0, min_diff := 360 } (0 : ℤ)) := rfl
  unfold findNearestF32 findNearest
  simp only [hF, hE, e1, e2, href]

/-! ## The snap target -/

theorem snapTarget_of_normalize {fuel : ℕ} {h v : ℚ} (hv : normalizeHeading fuel h = some v) :
    snapTarget fuel h = some (findNearest v) := by
  unfold snapTarget
  rw [hv]
  rfl

theorem snapTarget_of_mem (fuel : ℕ) {h : ℚ} (h0 : 0 ≤ h) (h1 : h < 360) :
    snapTarget (fuel + 1) h = some (findNearest h) :=
  snapTarget_of_normalize (normalizeHeading_of_mem fuel h0 h1)

theorem headingSnapBlock_of_snapTarget {fuel : ℕ} {h t : ℚ} (ht : snapTarget fuel h = some t) :
    headingSnapBlock fuel true h = some [Cmd.turnToHeading t 1000 127 false] := by
  unfold headingSnapBlock
  rw [if_pos rfl, ht]
  rfl

/-- For every binary32 pose heading, the search with rounded differences on the
normalised heading returns the heading `snapTarget` returns. -/
theorem snapTarget_eq_findNearestF32 {fuel : ℕ} {theta v : ℚ} (hf : roundF32 theta = theta)
    (hv : normalizeHeading fuel theta = some v) :
    snapTarget fuel theta = some (findNearestF32 v) := by
  obtain ⟨v0, v1⟩ := normalizeHeading_range hv
  rw [snapTarget_of_normalize hv, findNearestF32_eq (normalizeHeading_f32 hf hv) v0 v1]

/-! ## One operator-control pass -/

theorem arcadeCalls_append (a b : List Cmd) :
    arcadeCalls (a ++ b) = arcadeCalls a ++ arcadeCalls b := by
  unfold arcadeCalls
  rw [List.filterMap_append]

theorem arcadeCalls_intake_store (p : Int) : arcadeCalls (intake_store p) = [] := by
  unfold intake_store
  split_ifs <;> rfl

theorem arcadeCalls_autonomous (p : Int) : arcadeCalls (autonomous p) = [] := by
  unfold autonomous
  simp only [arcadeCalls_append, arcadeCalls_intake_store]
  rfl

theorem arcadeCalls_runRoutine (p : Int) (r : Routine) : arcadeCalls (runRoutine p r) = [] := by
  cases r
  · exact arcadeCalls_intake_store p
  · rfl
  · rfl
  · rfl
  · rfl

theorem motorCmds_append (a b : List Cmd) :
    motorCmds (a ++ b) = motorCmds a ++ motorCmds b := by
  unfold motorCmds
  rw [List.filter_append]

theorem motorCmds_intake_store (p : Int) : motorCmds (intake_store p) = intake_store p := by
  unfold intake_store
  split_ifs <;> rfl

theorem motorCmds_runRoutine (p : Int) (r : Routine) :
    motorCmds (runRoutine p r) = runRoutine p r := by
  cases r
  · exact motorCmds_intake_store p
  · rfl
  · rfl
  · rfl
  · rfl

theorem motorCmds_autonomous (p : Int) :
    motorCmds (autonomous p) = intake_store p ++ stop_intake := by
  have hlcd : ∀ (n : Nat) (t : String), motorCmds [Cmd.lcdSetText n t] = [] := fun _ _ => rfl
  have hpose : motorCmds [Cmd.setPose 0 0 0] = [] := rfl
  have hmove : motorCmds [Cmd.moveToPoint 24 0 2000] = [] := rfl
  have hstop : motorCmds stop_intake = stop_intake := rfl
  unfold autonomous
  simp only [motorCmds_append, motorCmds_intake_store, hlcd, hpose, hmove, hstop,
    List.append_nil, List.nil_append]

/-- The Y-button block issues no drive and no motor command. -/
theorem headingSnapBlock_quiet {fuel : ℕ} {y : Bool} {theta : ℚ} {snap : List Cmd}
    (hs : headingSnapBlock fuel y theta = some snap) :
    arcadeCalls snap = [] ∧ motorCmds snap = [] := by
  unfold headingSnapBlock at hs
  cases y
  · rw [if_neg Bool.false_ne_true] at hs
    cases hs
    exact ⟨rfl, rfl⟩
  · rw [if_pos rfl] at hs
    cases ht : snapTarget fuel theta with
    | none => rw [ht] at hs; simp at hs
    | some t =>
      rw [ht] at hs
      simp only [Option.map_some', Option.some.injEq] at hs
      rw [← hs]
      exact ⟨rfl, rfl⟩

theorem arcadeCalls_iterationTrace (i : Inputs) {snap : List Cmd}
    (hs : arcadeCalls snap = []) :
    arcadeCalls (iterationTrace i snap)
      = [(reverseForward i.a_pressed i.left_y, i.right_x)] := by
  have hup : arcadeCalls (if i.up then autonomous i.auton_proximity else []) = [] := by
    split_ifs
    · exact arcadeCalls_autonomous _
    · rfl
  have hc : arcadeCalls (if i.right_new_press then [Cmd.toggleC] else []) = [] := by
    split_ifs <;> rfl
  have hd : arcadeCalls (if i.left_new_press then [Cmd.toggleD] else []) = [] := by
    split_ifs <;> rfl
  have hblock : arcadeCalls (arcadeBlock i.a_pressed i.left_y i.right_x)
      = [(reverseForward i.a_pressed i.left_y, i.right_x)] := rfl
  have hxy : arcadeCalls [Cmd.lcdPrintXY i.lcd_x i.lcd_y] = [] := rfl
  have hth : arcadeCalls [Cmd.lcdPrintHeading i.lcd_theta] = [] := rfl
  have hdelay : arcadeCalls [Cmd.delay 20] = [] := rfl
  unfold iterationTrace
  simp only [arcadeCalls_append, hup, hc, hd, hs, hblock, intakeBlock,
    arcadeCalls_runRoutine, hxy, hth, hdelay, List.append_nil, List.nil_append]

/-- The motor commands of one pass: those of `autonomous` when UP is held,
followed by those of the routine selected by R1, R2, L1, L2. -/
theorem motorCmds_iterationTrace (i : Inputs) {snap : List Cmd} (hs : motorCmds snap = []) :
    motorCmds (iterationTrace i snap)
      = (if i.up then intake_store i.auton_proximity ++ stop_intake else [])
        ++ runRoutine i.proximity (selectRoutine i.r1 i.r2 i.l1 i.l2) := by
  have hup : motorCmds (if i.up then autonomous i.auton_proximity else [])
      = if i.up then intake_store i.auton_proximity ++ stop_intake else [] := by
    split_ifs
    · exact motorCmds_autonomous _
    · rfl
  have hc : motorCmds (if i.right_new_press then [Cmd.toggleC] else []) = [] := by
    split_ifs <;> rfl
  have hd : motorCmds (if i.left_new_press then [Cmd.toggleD] else []) = [] := by
    split_ifs <;> rfl
  have hblock : motorCmds (arcadeBlock i.a_pressed i.left_y i.right_x) = [] := rfl
  have hxy : motorCmds [Cmd.lcdPrintXY i.lcd_x i.lcd_y] = [] := rfl
  have hth : motorCmds [Cmd.lcdPrintHeading i.lcd_theta] = [] := rfl
  have hdelay : motorCmds [Cmd.delay 20] = [] := rfl
  unfold iterationTrace
  simp only [motorCmds_append, hup, hc, hd, hs, hblock, intakeBlock,
    motorCmds_runRoutine, hxy, hth, hdelay, List.append_nil]

theorem opcontrolIteration_some {fuel : ℕ} {i : Inputs} {tr : List Cmd}
    (h : opcontrolIteration fuel i = some tr) :
    ∃ snap, headingSnapBlock fuel i.y_new_press i.theta = some snap ∧
      tr = iterationTrace i snap := by
  unfold opcontrolIteration at h
  cases hs : headingSnapBlock fuel i.y_new_press i.theta with
  | none => rw [hs] at h; simp at h
  | some snap =>
    rw [hs] at h
    simp only [Option.map_some', Option.some.injEq] at h
    exact ⟨snap, rfl, h.symm⟩

/-- A pass completes when Y is not pressed, and also when the pose heading has
magnitude at most 2^33. -/
theorem opcontrolIteration_completes (i : Inputs)
    (hi : i.y_new_press = false ∨ |i.theta| ≤ 2 ^ 33) :
    ∃ n : ℕ, ∀ fuel, n ≤ fuel → ∃ tr, opcontrolIteration fuel i = some tr := by
  rcases hi with hy | hth
  · refine ⟨0, fun fuel _ => ⟨iterationTrace i [], ?_⟩⟩
    unfold opcontrolIteration headingSnapBlock
    rw [hy, if_neg Bool.false_ne_true]
    rfl
  · obtain ⟨n, v, _, _, hv⟩ := normalizeHeading_terminates hth
    refine ⟨n, fun fuel hf => ?_⟩
    have ht := snapTarget_of_normalize (hv fuel hf)
    cases hy : i.y_new_press
    · refine ⟨iterationTrace i [], ?_⟩
      unfold opcontrolIteration headingSnapBlock
      rw [hy, if_neg Bool.false_ne_true]
      rfl
    · refine ⟨iterationTrace i [Cmd.turnToHeading (findNearest v) 1000 127 false], ?_⟩
      unfold opcontrolIteration
      rw [hy, headingSnapBlock_of_snapTarget ht]
      rfl

/-! ## Representatives of a heading difference -/

/-- The angular distance does not depend on how the difference is reduced mod
360: every representative `d` of `a - b` with `|d| ≤ 360` gives the same value. -/
theorem angularDistance_of_representative (a b d : ℚ) (k : ℤ)
    (hd : d = a - b + 360 * (k : ℚ)) (habs : |d| ≤ 360) :
    min |d| (360 - |d|) = angularDistance a b := by
  have r0 := reduceMod360_nonneg (a - b)
  have r1 := reduceMod360_lt (a - b)
  obtain ⟨hlo, hhi⟩ := abs_le.mp habs
  unfold angularDistance
  simp only []
  have hr : reduceMod360 (a - b) = a - b - 360 * ((⌊(a - b) / 360⌋ : ℤ) : ℚ) := rfl
  generalize hj : k + ⌊(a - b) / 360⌋ = j
  have hdj : d = reduceMod360 (a - b) + 360 * (j : ℚ) := by
    rw [← hj, hr, hd]
    push_cast
    ring
  have j1 : j ≤ 1 := by
    have : (j : ℚ) < 2 := by linarith
    have : j < 2 := by exact_mod_cast this
    omega
  have j2 : -1 ≤ j := by
    have : (-2 : ℚ) < (j : ℚ) := by linarith
    have : -2 < j := by exact_mod_cast this
    omega
  rw [abs_of_nonneg r0]
  interval_cases j
  · have e : d = -(360 - reduceMod360 (a - b)) := by
      rw [hdj]
      push_cast
      ring
    rw [e, abs_neg, abs_of_nonneg (by linarith), min_comm]
    congr 1
    ring
  · have e : d = reduceMod360 (a - b) := by
      rw [hdj]
      push_cast
      ring
    rw [e, abs_of_nonneg r0]
  · have e : d = reduceMod360 (a - b) + 360 := by
      rw [hdj]
      push_cast
      ring
    have hz : reduceMod360 (a - b) = 0 := by linarith
    rw [e, hz]
    norm_num

/-! ## Main results -/

/-- C9 as stated fails in binary32 arithmetic: 48 snaps to 90, while the
binary32 heading `48 + 360 * 372828 = 2^27 + 400` snaps to 0, because the
first subtraction of 360 is rounded from `2^27 + 40` to `2^27 + 32`. -/
theorem snap_not_periodic_above_2_27 :
    (134218128 : ℚ) = 48 + 360 * ((372828 : ℤ) : ℚ) ∧
      roundF32 134218128 = 134218128 ∧
      roundF32 (134218128 - 360) = 134217760 ∧
      snapTarget 1 48 = some 90 ∧
      normalizeHeading 372829 134218128 = some 40 ∧
      snapTarget 372829 134218128 = some 0 := by
  have hn := normalizeHeading_above_2_27 372829 (le_refl _)
  refine ⟨by norm_num, ?_, roundF32_tie_above_2_27, ?_, hn, ?_⟩
  · have := roundF32_int_mul_pow 8388633 4 (by norm_num)
    norm_num at this ⊢
    exact this
  · rw [snapTarget_of_mem 0 (by norm_num) (by norm_num),
      findNearest_eq (by norm_num) (by norm_num)]
    norm_num
  · rw [snapTarget_of_normalize hn, findNearest_eq (by norm_num) (by norm_num)]
    norm_num

/-- C9, amended: for every binary32 heading `h` and integer `k` such that
`h + 360 * k` is a binary32 value and both are below 2^27 in magnitude, where
every addition and subtraction of 360 but the last addition is exact, the snap
target of `h + 360 * k` equals the snap target of `h`; in particular for
integers of magnitude at most 2^24; and every binary32 value below 2^27 in
magnitude that is 0, 90, 180 or 270 plus `360 * k` snaps to that cardinal. -/
theorem snapTarget_periodic (h : ℚ) (k : ℤ) :
    (roundF32 h = h → roundF32 (h + 360 * (k : ℚ)) = h + 360 * (k : ℚ) →
        |h| < 2 ^ 27 → |h + 360 * (k : ℚ)| < 2 ^ 27 →
        ∃ (n : ℕ) (t : ℚ), ∀ fuel, n ≤ fuel →
          snapTarget fuel h = some t ∧ snapTarget fuel (h + 360 * (k : ℚ)) = some t) ∧
      (∀ z : ℤ, h = (z : ℚ) → |z| ≤ 2 ^ 24 → |z + 360 * k| ≤ 2 ^ 24 →
        ∃ (n : ℕ) (t : ℚ), ∀ fuel, n ≤ fuel →
          snapTarget fuel h = some t ∧ snapTarget fuel (h + 360 * (k : ℚ)) = some t) ∧
      (roundF32 (0 + 360 * (k : ℚ)) = 0 + 360 * (k : ℚ) → |0 + 360 * (k : ℚ)| < 2 ^ 27 →
        ∃ n : ℕ, ∀ fuel, n ≤ fuel → snapTarget fuel (0 + 360 * (k : ℚ)) = some 0) ∧
      (roundF32 (90 + 360 * (k : ℚ)) = 90 + 360 * (k : ℚ) → |90 + 360 * (k : ℚ)| < 2 ^ 27 →
        ∃ n : ℕ, ∀ fuel, n ≤ fuel → snapTarget fuel (90 + 360 * (k : ℚ)) = some 90) ∧
      (roundF32 (180 + 360 * (k : ℚ)) = 180 + 360 * (k : ℚ) → |180 + 360 * (k : ℚ)| < 2 ^ 27 →
        ∃ n : ℕ, ∀ fuel, n ≤ fuel → snapTarget fuel (180 + 360 * (k : ℚ)) = some 180) ∧
      (roundF32 (270 + 360 * (k : ℚ)) = 270 + 360 * (k : ℚ) → |270 + 360 * (k : ℚ)| < 2 ^ 27 →
        ∃ n : ℕ, ∀ fuel, n ≤ fuel → snapTarget fuel (270 + 360 * (k : ℚ)) = some 270) := by
  have hper : ∀ x : ℚ, roundF32 x = x → roundF32 (x + 360 * (k : ℚ)) = x + 360 * (k : ℚ) →
      |x| < 2 ^ 27 → |x + 360 * (k : ℚ)| < 2 ^ 27 →
      ∃ (n : ℕ) (t : ℚ), ∀ fuel, n ≤ fuel →
        snapTarget fuel x = some t ∧ snapTarget fuel (x + 360 * (k : ℚ)) = some t := by
    intro x hf hfk h27 hk27
    obtain ⟨n1, v1, hn1, hs1⟩ := normalizeHeading_f32_run hf h27
    obtain ⟨n2, v2, hn2, hs2⟩ := normalizeHeading_f32_run hfk hk27
    have hv : v2 = v1 := by
      have e1 := hs1 (max n1 n2) (le_max_left _ _)
      have e2 := hs2 (max n1 n2) (le_max_right _ _)
      rw [reduceMod360_add_turns, e1] at e2
      exact (Option.some.inj e2).symm
    refine ⟨max n1 n2, findNearest v1, fun fuel hfuel => ⟨?_, ?_⟩⟩
    · exact snapTarget_of_normalize (hn1 fuel (le_trans (le_max_left _ _) hfuel))
    · have := snapTarget_of_normalize (hn2 fuel (le_trans (le_max_right _ _) hfuel))
      rw [hv] at this
      exact this
  have hcard : ∀ c : ℤ, 0 ≤ c → c < 360 →
      roundF32 ((c : ℚ) + 360 * (k : ℚ)) = (c : ℚ) + 360 * (k : ℚ) →
      |(c : ℚ) + 360 * (k : ℚ)| < 2 ^ 27 →
      ∃ n : ℕ, ∀ fuel, n ≤ fuel →
        snapTarget fuel ((c : ℚ) + 360 * (k : ℚ)) = some (findNearest (c : ℚ)) := by
    intro c c0 c1 hfk hk27
    have q0 : (0 : ℚ) ≤ (c : ℚ) := by exact_mod_cast c0
    have q1 : (c : ℚ) < 360 := by exact_mod_cast c1
    have hfc : roundF32 (c : ℚ) = c := roundF32_intCast c (by rw [abs_le]; constructor <;> omega)
    have hc27 : |(c : ℚ)| < 2 ^ 27 := by
      rw [abs_of_nonneg q0]
      norm_num
      linarith
    obtain ⟨n, t, hn⟩ := hper (c : ℚ) hfc hfk hc27 hk27
    refine ⟨n + 1, fun fuel hfuel => ?_⟩
    obtain ⟨e1, e2⟩ := hn fuel (by omega)
    obtain ⟨m, rfl⟩ : ∃ m, fuel = m + 1 := ⟨fuel - 1, by omega⟩
    rw [snapTarget_of_mem m q0 q1] at e1
    rw [e2, ← e1]
  refine ⟨hper h, ?_, ?_, ?_, ?_, ?_⟩
  · intro z hz hz24 hzk24
    have hzq : |(z : ℚ)| ≤ 2 ^ 24 := by exact_mod_cast hz24
    have hzkq : |((z + 360 * k : ℤ) : ℚ)| ≤ 2 ^ 24 := by exact_mod_cast hzk24
    have hfk := roundF32_intCast (z + 360 * k) hzk24
    push_cast at hzkq hfk
    rw [hz]
    exact hper (z : ℚ) (roundF32_intCast z hz24) hfk (lt_of_le_of_lt hzq (by norm_num))
      (lt_of_le_of_lt hzkq (by norm_num))
  · intro hf h27
    have := hcard 0 (by norm_num) (by norm_num) (by push_cast; exact hf) (by push_cast; exact h27)
    rw [findNearest_eq (by norm_num) (by norm_num)] at this
    norm_num at this ⊢
    exact this
  · intro hf h27
    have := hcard 90 (by norm_num) (by norm_num) (by push_cast; exact hf) (by push_cast; exact h27)
    rw [findNearest_eq (by norm_num) (by norm_num)] at this
    norm_num at this ⊢
    exact this
  · intro hf h27
    have := hcard 180 (by norm_num) (by norm_num) (by push_cast; exact hf) (by push_cast; exact h27)
    rw [findNearest_eq (by norm_num) (by norm_num)] at this
    norm_num at this ⊢
    exact this
  · intro hf h27
    have := hcard 270 (by norm_num) (by norm_num) (by push_cast; exact hf) (by push_cast; exact h27)
    rw [findNearest_eq (by norm_num) (by norm_num)] at this
    norm_num at this ⊢
    exact this

/-- Witness for C9 at the heading 100 and two turns back. -/
theorem snapTarget_periodic_witness :
    ∃ (n : ℕ) (t : ℚ), ∀ fuel, n ≤ fuel →
      snapTarget fuel 100 = some t ∧
      snapTarget fuel (100 + 360 * ((-2 : ℤ) : ℚ)) = some t :=
  (snapTarget_periodic 100 (-2)).2.1 100 (by norm_num) (by norm_num) (by norm_num)

/-- C8: the exact midpoints snap to the lower cardinal (45 to 0, 135 to 90,
225 to 180, 315 to 270), and every normalised heading strictly between 315 and
360 snaps to 0, the loop having kept the extra candidate 360. -/
theorem snap_tie_breaking (fuel : ℕ) (h : ℚ) (hlo : 315 < h) (hhi : h < 360) :
    findNearest 45 = 0 ∧ findNearest 135 = 90 ∧ findNearest 225 = 180 ∧
      findNearest 315 = 270 ∧
      snapTarget (fuel + 1) 45 = some 0 ∧ snapTarget (fuel + 1) 135 = some 90 ∧
      snapTarget (fuel + 1) 225 = some 180 ∧ snapTarget (fuel + 1) 315 = some 270 ∧
      normalizeHeading (fuel + 1) h = some h ∧
      (cardinals.foldl (scanStep h) { nearest := 0, min_diff := 360 }).nearest = 360 ∧
      findNearest h = 0 ∧ snapTarget (fuel + 1) h = some 0 := by
  have h0 : 0 ≤ h := by linarith
  have e45 : findNearest 45 = 0 := by
    rw [findNearest_eq (by norm_num) (by norm_num)]
    norm_num
  have e135 : findNearest 135 = 90 := by
    rw [findNearest_eq (by norm_num) (by norm_num)]
    norm_num
  have e225 : findNearest 225 = 180 := by
    rw [findNearest_eq (by norm_num) (by norm_num)]
    norm_num
  have e315 : findNearest 315 = 270 := by
    rw [findNearest_eq (by norm_num) (by norm_num)]
    norm_num
  have eh : findNearest h = 0 := by
    rw [findNearest_eq h0 hhi, if_neg (by linarith), if_neg (by linarith), if_neg (by linarith),
      if_neg (by linarith)]
  refine ⟨e45, e135, e225, e315, ?_, ?_, ?_, ?_, normalizeHeading_of_mem fuel h0 hhi, ?_, eh, ?_⟩
  · rw [snapTarget_of_mem fuel (by norm_num) (by norm_num), e45]
  · rw [snapTarget_of_mem fuel (by norm_num) (by norm_num), e135]
  · rw [snapTarget_of_mem fuel (by norm_num) (by norm_num), e225]
  · rw [snapTarget_of_mem fuel (by norm_num) (by norm_num), e315]
  · rw [scan_result h0 hhi, if_neg (by linarith), if_neg (by linarith), if_neg (by linarith),
      if_neg (by linarith)]
  · rw [snapTarget_of_mem fuel h0 hhi, eh]

/-- Witness for C8 at the heading 350. -/
theorem snap_tie_breaking_witness :
    (315 : ℚ) < 350 ∧ (350 : ℚ) < 360 ∧ findNearest 315 = 270 ∧
      (cardinals.foldl (scanStep 350) { nearest := 0, min_diff := 360 }).nearest = 360 ∧
      snapTarget 1 350 = some 0 :=
  have t := snap_tie_breaking 0 350 (by norm_num) (by norm_num)
  ⟨by norm_num, by norm_num, t.2.2.2.1, t.2.2.2.2.2.2.2.2.2.1, t.2.2.2.2.2.2.2.2.2.2.2⟩

/-- C5 as stated fails at the heading 350: the loop returns 0, a scan over the
four candidates 0, 90, 180, 270 returns 270. -/
theorem four_candidate_scan_differs :
    normalizeHeading 1 350 = some 350 ∧ snapTarget 1 350 = some 0 ∧
      linearScan4 350 = 270 ∧ snapTarget 1 350 ≠ some (linearScan4 350) := by
  have e1 : snapTarget 1 350 = some 0 := by
    rw [snapTarget_of_mem 0 (by norm_num) (by norm_num),
      findNearest_eq (by norm_num) (by norm_num)]
    norm_num
  have e2 : linearScan4 350 = 270 := by
    rw [linearScan4_eq (by norm_num) (by norm_num)]
    norm_num
  refine ⟨normalizeHeading_of_mem 0 (by norm_num) (by norm_num), e1, e2, ?_⟩
  rw [e1, e2]
  norm_num

/-- C5, amended: for every heading `h`, with `h'` the normalised heading left
by the loops, the snap target is the result of a best-so-far scan over the five
candidates 0, 90, 180, 270, 360 on `h'`, with 360 reported as 0; it equals the
scan over the four candidates 0, 90, 180, 270 exactly when `h'` is at most 315.
The loops leave such an `h'` for every heading of magnitude at most 2^33. -/
theorem snapTarget_linear_scan (h : ℚ) :
    (∀ (fuel : ℕ) (h' : ℚ), normalizeHeading fuel h = some h' →
        snapTarget fuel h = some (linearScan5 h') ∧
        (snapTarget fuel h = some (linearScan4 h') ↔ h' ≤ 315)) ∧
      (|h| ≤ 2 ^ 33 →
        ∃ (n : ℕ) (h' : ℚ), ∀ fuel, n ≤ fuel → normalizeHeading fuel h = some h') := by
  refine ⟨?_, fun hh => ?_⟩
  · intro fuel x hx
    obtain ⟨x0, x1⟩ := normalizeHeading_range hx
    rw [snapTarget_of_normalize hx, linearScan5_eq_findNearest x0 x1]
    refine ⟨rfl, ?_⟩
    rw [Option.some.injEq, findNearest_eq x0 x1, linearScan4_eq x0 x1]
    by_cases k0 : x ≤ 45
    · simp only [if_pos k0, true_iff]
      linarith
    by_cases k1 : x ≤ 135
    · simp only [if_neg k0, if_pos k1, true_iff]
      linarith
    by_cases k2 : x ≤ 225
    · simp only [if_neg k0, if_neg k1, if_pos k2, true_iff]
      linarith
    by_cases k3 : x ≤ 315
    · simp only [if_neg k0, if_neg k1, if_neg k2, if_pos k3, true_iff]
      exact k3
    · simp only [if_neg k0, if_neg k1, if_neg k2, if_neg k3]
      constructor
      · intro hne
        norm_num at hne
      · intro hle
        exact absurd hle k3
  · obtain ⟨n, v, _, _, hv⟩ := normalizeHeading_terminates hh
    exact ⟨n, v, hv⟩

/-- Witness for C5 at the heading 350, which the loops leave unchanged. -/
theorem snapTarget_linear_scan_witness :
    snapTarget 1 350 = some (linearScan5 350) ∧
      (snapTarget 1 350 = some (linearScan4 350) ↔ (350 : ℚ) ≤ 315) :=
  (snapTarget_linear_scan 350).1 1 350 (normalizeHeading_of_mem 0 (by norm_num) (by norm_num))

/-- C2: for every state of R1, R2, L1, L2 the intake block issues the commands
of exactly one routine, chosen by the priority R1, R2, L1, L2, and it issues the
`stop_intake` commands if and only if none of the four buttons is pressed; in a
completed pass where UP is not held these are all the motor commands of the
pass, and a pass completes when Y is not pressed or the pose heading has
magnitude at most 2^33. -/
theorem intake_selection_priority (r1 r2 l1 l2 : Bool) (p : Int) :
    (∃! r : Routine, intakeBlock r1 r2 l1 l2 p = runRoutine p r) ∧
      (r1 = true → selectRoutine r1 r2 l1 l2 = Routine.intake_store ∧
        intakeBlock r1 r2 l1 l2 p = intake_store p) ∧
      (r1 = false → r2 = true → selectRoutine r1 r2 l1 l2 = Routine.outtake_top ∧
        intakeBlock r1 r2 l1 l2 p = outtake_top) ∧
      (r1 = false → r2 = false → l1 = true →
        selectRoutine r1 r2 l1 l2 = Routine.outtake_middle ∧
        intakeBlock r1 r2 l1 l2 p = outtake_middle) ∧
      (r1 = false → r2 = false → l1 = false → l2 = true →
        selectRoutine r1 r2 l1 l2 = Routine.outtake_bottom ∧
        intakeBlock r1 r2 l1 l2 p = outtake_bottom) ∧
      (selectRoutine r1 r2 l1 l2 = Routine.stop_intake ↔
        (r1 = false ∧ r2 = false ∧ l1 = false ∧ l2 = false)) ∧
      (intakeBlock r1 r2 l1 l2 p = stop_intake ↔
        (r1 = false ∧ r2 = false ∧ l1 = false ∧ l2 = false)) ∧
      (∀ (fuel : ℕ) (i : Inputs) (tr : List Cmd), i.up = false → i.r1 = r1 → i.r2 = r2 →
        i.l1 = l1 → i.l2 = l2 → i.proximity = p → opcontrolIteration fuel i = some tr →
        motorCmds tr = runRoutine p (selectRoutine r1 r2 l1 l2)) ∧
      (∀ i : Inputs, i.y_new_press = false ∨ |i.theta| ≤ 2 ^ 33 →
        ∃ n : ℕ, ∀ fuel, n ≤ fuel → ∃ tr, opcontrolIteration fuel i = some tr) := by
  have hinj : ∀ a b : Routine, runRoutine p a = runRoutine p b → a = b := by
    intro a b hab
    cases a <;> cases b <;> first | rfl | (exfalso; revert hab; unfold runRoutine intake_store outtake_top outtake_middle outtake_bottom stop_intake; split_ifs <;> simp)
  refine ⟨⟨selectRoutine r1 r2 l1 l2, rfl, fun r hr => (hinj _ _ hr).symm⟩,
    ?_, ?_, ?_, ?_, ?_, ?_, ?_, opcontrolIteration_completes⟩
  · rintro rfl
    exact ⟨rfl, rfl⟩
  · rintro rfl rfl
    exact ⟨rfl, rfl⟩
  · rintro rfl rfl rfl
    exact ⟨rfl, rfl⟩
  · rintro rfl rfl rfl rfl
    exact ⟨rfl, rfl⟩
  · cases r1 <;> cases r2 <;> cases l1 <;> cases l2 <;> simp [selectRoutine]
  · constructor
    · intro hs
      have hsel : selectRoutine r1 r2 l1 l2 = Routine.stop_intake :=
        hinj _ Routine.stop_intake hs
      revert hsel
      cases r1 <;> cases r2 <;> cases l1 <;> cases l2 <;> simp [selectRoutine]
    · rintro ⟨rfl, rfl, rfl, rfl⟩
      rfl
  · intro fuel i tr hup h1 h2 h3 h4 hp htr
    obtain ⟨snap, hs, rfl⟩ := opcontrolIteration_some htr
    rw [motorCmds_iterationTrace i (headingSnapBlock_quiet hs).2, hup, h1, h2, h3, h4, hp,
      if_neg Bool.false_ne_true, List.nil_append]

/-- Witness for C2 with R2 and L2 held: `outtake_top` runs. -/
theorem intake_selection_priority_witness :
    selectRoutine false true false true = Routine.outtake_top ∧
      intakeBlock false true false true 0 = outtake_top :=
  (intake_selection_priority false true false true 0).2.2.1 rfl rfl

/-- C3: for every proximity reading `p`, `intake_store` commands front_bottom to
-127 and back_top to 0, and middle to 65 exactly when `p > 100`, otherwise to 0;
at `p = 100` the middle motor is commanded 0. -/
theorem intake_store_threshold (p : Int) :
    voltagesTo Motor.front_bottom (intake_store p) = [-127] ∧
      voltagesTo Motor.back_top (intake_store p) = [0] ∧
      voltagesTo Motor.middle (intake_store p) = [if p > 100 then 65 else 0] ∧
      (voltagesTo Motor.middle (intake_store p) = [65] ↔ p > 100) ∧
      (voltagesTo Motor.middle (intake_store p) = [0] ↔ p ≤ 100) ∧
      voltagesTo Motor.middle (intake_store 100) = [0] ∧
      voltagesTo Motor.middle (intake_store 101) = [65] := by
  unfold intake_store voltagesTo
  by_cases hp : p > 100
  · simp [hp]
  · simp [hp]
    omega

/-- C4: for every proximity reading `p`, `autonomous` sets the pose to
(0, 0, 0), then issues the `intake_store` motor commands, then exactly one
chassis motion, `moveToPoint(24, 0)` with timeout 2000, whose target is at
squared distance 24 squared from the start; all intake commands come before the
move, and after it the last command to each intake motor is 0. -/
theorem autonomous_sequence (p : Int) :
    autonomous p =
        [Cmd.lcdSetText 3 "Auton Started!", Cmd.setPose 0 0 0, Cmd.lcdSetText 4 "Pose Set",
          Cmd.move Motor.front_bottom (-127),
          Cmd.move Motor.middle (if p > 100 then 65 else 0),
          Cmd.move Motor.back_top 0,
          Cmd.lcdSetText 5 "Intake Running", Cmd.moveToPoint 24 0 2000,
          Cmd.lcdSetText 6 "Movement Done",
          Cmd.move Motor.front_bottom 0, Cmd.move Motor.middle 0, Cmd.move Motor.back_top 0,
          Cmd.lcdSetText 7 "Auton Complete"] ∧
      actuatorCmds (autonomous p)
        = Cmd.setPose 0 0 0 :: intake_store p ++ Cmd.moveToPoint 24 0 2000 :: stop_intake ∧
      motionCmds (autonomous p) = [Cmd.moveToPoint 24 0 2000] ∧
      distSq 0 0 24 0 = 24 ^ 2 ∧
      (∃ pre post : List Cmd,
        autonomous p = pre ++ Cmd.moveToPoint 24 0 2000 :: post ∧
          actuatorCmds pre = Cmd.setPose 0 0 0 :: intake_store p ∧
          motorCmds pre = intake_store p ∧
          motorCmds post = stop_intake ∧
          ∀ m : Motor, voltagesTo m post = [0]) ∧
      ∀ m : Motor, (voltagesTo m (autonomous p)).getLast? = some 0 := by
  have hlist : autonomous p =
      [Cmd.lcdSetText 3 "Auton Started!", Cmd.setPose 0 0 0, Cmd.lcdSetText 4 "Pose Set",
        Cmd.move Motor.front_bottom (-127),
        Cmd.move Motor.middle (if p > 100 then 65 else 0),
        Cmd.move Motor.back_top 0,
        Cmd.lcdSetText 5 "Intake Running", Cmd.moveToPoint 24 0 2000,
        Cmd.lcdSetText 6 "Movement Done",
        Cmd.move Motor.front_bottom 0, Cmd.move Motor.middle 0, Cmd.move Motor.back_top 0,
        Cmd.lcdSetText 7 "Auton Complete"] := by
    unfold autonomous intake_store stop_intake
    split_ifs <;> rfl
  have hstore : intake_store p =
      [Cmd.move Motor.front_bottom (-127),
        Cmd.move Motor.middle (if p > 100 then 65 else 0),
        Cmd.move Motor.back_top 0] := by
    unfold intake_store
    split_ifs <;> rfl
  refine ⟨hlist, ?_, ?_, ?_, ?_, ?_⟩
  · rw [hlist, hstore]
    rfl
  · rw [hlist]
    rfl
  · norm_num [distSq]
  · refine ⟨[Cmd.lcdSetText 3 "Auton Started!", Cmd.setPose 0 0 0, Cmd.lcdSetText 4 "Pose Set",
        Cmd.move Motor.front_bottom (-127),
        Cmd.move Motor.middle (if p > 100 then 65 else 0),
        Cmd.move Motor.back_top 0,
        Cmd.lcdSetText 5 "Intake Running"],
      [Cmd.lcdSetText 6 "Movement Done",
        Cmd.move Motor.front_bottom 0, Cmd.move Motor.middle 0, Cmd.move Motor.back_top 0,
        Cmd.lcdSetText 7 "Auton Complete"], ?_, ?_, ?_, rfl, ?_⟩
    · rw [hlist]
      rfl
    · rw [hstore]
      rfl
    · rw [hstore]
      rfl
    · intro m
      cases m <;> rfl
  · intro m
    rw [hlist]
    cases m <;> rfl

/-- C7: for every left-stick value `f` in [-127, 127] and every right-stick
value `t`, `chassis.arcade` receives `(-f, t)` when A is pressed and `(f, t)`
when it is not, in the arcade block and in every completed pass (a pass
completes when Y is not pressed or the pose heading has magnitude at most
2^33); the turn value does not depend on A, the negated forward value stays in
[-127, 127], and negating twice gives back `f`. -/
theorem arcade_reversal (f t : Int) (hf : -127 ≤ f ∧ f ≤ 127) :
    arcadeBlock true f t = [Cmd.arcade (-f) t] ∧
      arcadeBlock false f t = [Cmd.arcade f t] ∧
      (∀ (fuel : ℕ) (i : Inputs) (tr : List Cmd), i.left_y = f → i.right_x = t →
        opcontrolIteration fuel i = some tr →
        arcadeCalls tr = [(if i.a_pressed then -f else f, t)]) ∧
      (∀ i : Inputs, i.y_new_press = false ∨ |i.theta| ≤ 2 ^ 33 →
        ∃ n : ℕ, ∀ fuel, n ≤ fuel → ∃ tr, opcontrolIteration fuel i = some tr) ∧
      (∀ a : Bool, (arcadeCalls (arcadeBlock a f t)).map Prod.snd = [t]) ∧
      (-127 ≤ reverseForward true f ∧ reverseForward true f ≤ 127) ∧
      reverseForward true (reverseForward true f) = f := by
  have hneg : wrapInt32 (-f) = -f := by
    unfold wrapInt32
    omega
  have hback : wrapInt32 (- -f) = f := by
    unfold wrapInt32
    omega
  have hrev : reverseForward true f = -f := by
    unfold reverseForward
    rw [if_pos rfl, hneg]
  have hfwd : reverseForward false f = f := by
    unfold reverseForward
    rw [if_neg Bool.false_ne_true]
  refine ⟨?_, ?_, ?_, opcontrolIteration_completes, ?_, ?_, ?_⟩
  · unfold arcadeBlock
    simp only [hrev]
  · unfold arcadeBlock
    simp only [hfwd]
  · intro fuel i tr hl hr htr
    obtain ⟨snap, hs, rfl⟩ := opcontrolIteration_some htr
    rw [arcadeCalls_iterationTrace i (headingSnapBlock_quiet hs).1, hl, hr]
    cases i.a_pressed
    · rw [hfwd, if_neg Bool.false_ne_true]
    · rw [hrev, if_pos rfl]
  · intro a
    unfold arcadeBlock arcadeCalls
    simp only [List.filterMap_cons, List.filterMap_nil, List.map_cons, List.map_nil]
  · rw [hrev]
    omega
  · rw [hrev]
    unfold reverseForward
    rw [if_pos rfl, hback]

/-- Witness for C7 at the stick values 100 and -30. -/
theorem arcade_reversal_witness :
    ((-127 : Int) ≤ 100 ∧ (100 : Int) ≤ 127) ∧
      arcadeBlock true 100 (-30) = [Cmd.arcade (-100) (-30)] ∧
      arcadeBlock false 100 (-30) = [Cmd.arcade 100 (-30)] ∧
      reverseForward true (reverseForward true 100) = 100 :=
  have t := arcade_reversal 100 (-30) (by decide)
  ⟨by decide, t.1, t.2.1, t.2.2.2.2.2.2⟩

end Butterfingers
